import Mathlib

/-!
Verification of the core data model and operations of the filemaster/filelord
content-addressed file organizer, as a shallow embedding in Lean 4.

Paths (`pathlib.Path`) are modelled by `PyPath`: an absoluteness flag plus the
list of path components, each component being a list of characters.  Modification
times (floats in the source) are modelled as integers: every property in scope
uses only their ordering and comparison with the sentinel value 0.  Byte strings
are modelled as `List Nat` (one entry per byte).
-/

/-- Model of `pathlib.Path`: normalized form, an absoluteness flag plus the
list of components.  `pathlib` normalizes away empty and `'.'` components, so a
well-formed value has no such components and no `'/'` inside a component. -/
structure PyPath where
  absolute : Bool
  parts : List (List Char)
deriving DecidableEq, Repr

/-- Well-formedness invariant of `pathlib.Path` values: components are nonempty,
are not `"."`, and contain no slash.  Every value constructed by `pathlib`
satisfies this. -/
def PyPath.WF (p : PyPath) : Prop :=
  ∀ c ∈ p.parts, c ≠ [] ∧ c ≠ ['.'] ∧ '/' ∉ c

instance (p : PyPath) : Decidable p.WF := by
  unfold PyPath.WF; infer_instance

/-- `CacheEntry` namedtuple from `filemaster/cache.py` (bound to the name
`CachedFile` there): absolute path, mtime and content hash of one file. -/
structure CachedFile where
  path : PyPath
  mtime : Int
  hash : String
deriving DecidableEq, Repr

/-- `IndexEntry` namedtuple from `filelord/index.py`: content hash, optional
root-relative intended path, and the list of absolute paths at which content
with this hash has been seen. -/
structure IndexEntry where
  hash : String
  intended_path : Option PyPath
  seen_paths : List PyPath
deriving DecidableEq, Repr

/-- `AggregatedFile` namedtuple from `filelord/index.py`: an index entry joined
with the cached files sharing its hash. -/
structure AggregatedFile where
  index_entry : IndexEntry
  cached_files : List CachedFile
deriving DecidableEq, Repr

/-- Lookup in an insertion-ordered dictionary modelled as an association list
(Python `dict.get`). -/
def dictGet (m : List (String × AggregatedFile)) (k : String) : Option AggregatedFile :=
  match m with
  | [] => none
  | (k', v) :: t => if k' = k then some v else dictGet t k

/-- Assignment `d[k] = v` on an insertion-ordered dictionary: an existing key
keeps its position, a new key is appended at the end (CPython dict semantics). -/
def dictSet (m : List (String × AggregatedFile)) (k : String) (v : AggregatedFile) :
    List (String × AggregatedFile) :=
  match m with
  | [] => [(k, v)]
  | (k', v') :: t => if k' = k then (k, v) :: t else (k', v') :: dictSet t k v

/-- The dict comprehension `{i.hash: AggregatedFile(i, []) for i in self._store.get()}`
from `FileIndex.aggregate_files`. -/
def dictOfIndex (idx : List IndexEntry) : List (String × AggregatedFile) :=
  idx.foldl (fun m i => dictSet m i.hash ⟨i, []⟩) []

/-- The updated aggregated file computed by one iteration of the
`for i in cached_files` loop of `FileIndex.aggregate_files`: fetch (or
synthesize) the aggregated file for `c.hash`, append the cached file to
`cached_files`, and append the path to `seen_paths` on first sight. -/
def aggVal (m : List (String × AggregatedFile)) (c : CachedFile) : AggregatedFile :=
  let af := (dictGet m c.hash).getD ⟨⟨c.hash, none, []⟩, []⟩
  ⟨if c.path ∈ af.index_entry.seen_paths then af.index_entry
   else { af.index_entry with seen_paths := af.index_entry.seen_paths ++ [c.path] },
   af.cached_files ++ [c]⟩

/-- Body of the `for i in cached_files` loop of `FileIndex.aggregate_files`:
store the updated aggregated file back under `c.hash`
(`files_by_hash[i.hash] = AggregatedFile(index_entry, cached_files)`). -/
def aggStep (m : List (String × AggregatedFile)) (c : CachedFile) :
    List (String × AggregatedFile) :=
  dictSet m c.hash (aggVal m c)

/-- `FileIndex.aggregate_files` from `filelord/index.py`: join the persisted
index with the cached files, returning the dictionary's values in insertion
order. -/
def aggregate_files (idx : List IndexEntry) (cached : List CachedFile) :
    List AggregatedFile :=
  (cached.foldl aggStep (dictOfIndex idx)).map Prod.snd

/-- First-observation order of the hashes synthesized during the join: the
hashes of the cached files that are not in the persisted index, in the order
they are first encountered. -/
def newHashes (idx : List IndexEntry) (cached : List CachedFile) : List String :=
  cached.foldl
    (fun acc c => if c.hash ∈ idx.map IndexEntry.hash ++ acc then acc else acc ++ [c.hash])
    []

theorem dictGet_eq_none (m : List (String × AggregatedFile)) (k : String) :
    dictGet m k = none ↔ k ∉ m.map Prod.fst := by
  induction m with
  | nil => simp [dictGet]
  | cons p t ih =>
    obtain ⟨k', v⟩ := p
    by_cases h : k' = k
    · subst h
      simp [dictGet]
    · have h' : ¬k = k' := fun e => h e.symm
      simp [dictGet, h, ih, h']

theorem dictGet_mem {m : List (String × AggregatedFile)} {k : String} {v : AggregatedFile}
    (h : dictGet m k = some v) : (k, v) ∈ m := by
  induction m with
  | nil => simp [dictGet] at h
  | cons p t ih =>
    obtain ⟨k', v'⟩ := p
    by_cases hk : k' = k
    · simp [dictGet, hk] at h
      subst hk h
      exact List.mem_cons_self _ _
    · simp [dictGet, hk] at h
      exact List.mem_cons_of_mem _ (ih h)

theorem dictSet_of_not_mem {m : List (String × AggregatedFile)} {k : String}
    (v : AggregatedFile) (h : k ∉ m.map Prod.fst) : dictSet m k v = m ++ [(k, v)] := by
  induction m with
  | nil => simp [dictSet]
  | cons p t ih =>
    obtain ⟨k', v'⟩ := p
    simp only [List.map_cons, List.mem_cons] at h
    push_neg at h
    have hk : ¬(k' = k) := fun e => h.1 e.symm
    simp [dictSet, hk, ih h.2]

theorem dictSet_map_fst (m : List (String × AggregatedFile)) (k : String) (v : AggregatedFile) :
    (dictSet m k v).map Prod.fst =
      if k ∈ m.map Prod.fst then m.map Prod.fst else m.map Prod.fst ++ [k] := by
  induction m with
  | nil => simp [dictSet]
  | cons p t ih =>
    obtain ⟨k', v'⟩ := p
    by_cases hk : k' = k
    · subst hk
      simp [dictSet]
    · by_cases hmem : k ∈ t.map Prod.fst <;>
        simp [dictSet, hk, Ne.symm hk, hmem, ih]

theorem mem_dictSet_self (m : List (String × AggregatedFile)) (k : String) (v : AggregatedFile) :
    (k, v) ∈ dictSet m k v := by
  induction m with
  | nil => simp [dictSet]
  | cons p t ih =>
    obtain ⟨k', v'⟩ := p
    by_cases hk : k' = k <;> simp [dictSet, hk, ih]

theorem eq_of_mem_nodup_keys {m : List (String × AggregatedFile)}
    (hnd : (m.map Prod.fst).Nodup) {p q : String × AggregatedFile}
    (hp : p ∈ m) (hq : q ∈ m) (hk : p.1 = q.1) : p = q := by
  induction m with
  | nil => simp at hp
  | cons r t ih =>
    simp only [List.map_cons, List.nodup_cons] at hnd
    rcases List.mem_cons.mp hp with hp1 | hp1 <;> rcases List.mem_cons.mp hq with hq1 | hq1
    · rw [hp1, hq1]
    · exfalso
      have hmem : q.1 ∈ t.map Prod.fst := List.mem_map_of_mem Prod.fst hq1
      rw [hp1] at hk
      rw [← hk] at hmem
      exact hnd.1 hmem
    · exfalso
      have hmem : p.1 ∈ t.map Prod.fst := List.mem_map_of_mem Prod.fst hp1
      rw [hq1] at hk
      rw [hk] at hmem
      exact hnd.1 hmem
    · exact ih hnd.2 hp1 hq1

theorem mem_dictSet_strong {m : List (String × AggregatedFile)}
    (hnd : (m.map Prod.fst).Nodup) {k : String} {v : AggregatedFile}
    {q : String × AggregatedFile} (h : q ∈ dictSet m k v) :
    q = (k, v) ∨ (q ∈ m ∧ q.1 ≠ k) := by
  induction m with
  | nil =>
    simp [dictSet] at h
    exact Or.inl h
  | cons p t ih =>
    obtain ⟨k', v'⟩ := p
    simp only [List.map_cons, List.nodup_cons] at hnd
    by_cases hk : k' = k
    · subst hk
      simp only [dictSet, if_pos rfl] at h
      rcases List.mem_cons.mp h with h1 | h1
      · exact Or.inl h1
      · refine Or.inr ⟨List.mem_cons_of_mem _ h1, ?_⟩
        intro hqk
        exact hnd.1 (hqk ▸ (List.mem_map_of_mem Prod.fst h1))
    · simp only [dictSet, if_neg hk] at h
      rcases List.mem_cons.mp h with h1 | h1
      · exact Or.inr ⟨h1 ▸ List.mem_cons_self _ _, by rw [h1]; exact hk⟩
      · rcases ih hnd.2 h1 with h2 | h2
        · exact Or.inl h2
        · exact Or.inr ⟨List.mem_cons_of_mem _ h2.1, h2.2⟩

/-- The order in which previously unseen elements of `l` are first observed,
given that the elements of `seen` have been observed already. -/
def firstSights (seen : List String) : List String → List String
  | [] => []
  | h :: t => if h ∈ seen then firstSights seen t else h :: firstSights (h :: seen) t

theorem firstSights_congr {s s' : List String} (h : ∀ x, x ∈ s ↔ x ∈ s') :
    ∀ l, firstSights s l = firstSights s' l := by
  intro l
  induction l generalizing s s' with
  | nil => rfl
  | cons a t ih =>
    by_cases ha : a ∈ s
    · simp [firstSights, ha, (h a).mp ha, ih h]
    · have ha' : a ∉ s' := fun hx => ha ((h a).mpr hx)
      have hcong : ∀ x, x ∈ a :: s ↔ x ∈ a :: s' := by
        intro x
        simp only [List.mem_cons]
        exact or_congr Iff.rfl (h x)
      simp [firstSights, ha, ha', ih hcong]

theorem mem_firstSights (s : List String) (l : List String) (x : String) :
    x ∈ firstSights s l ↔ x ∈ l ∧ x ∉ s := by
  induction l generalizing s with
  | nil => simp [firstSights]
  | cons a t ih =>
    by_cases ha : a ∈ s
    · simp only [firstSights, if_pos ha, ih, List.mem_cons]
      constructor
      · exact fun ⟨h1, h2⟩ => ⟨Or.inr h1, h2⟩
      · rintro ⟨h1 | h1, h2⟩
        · exact absurd (h1 ▸ ha) h2
        · exact ⟨h1, h2⟩
    · simp only [firstSights, if_neg ha, List.mem_cons, ih]
      constructor
      · rintro (h1 | ⟨h1, h2⟩)
        · exact ⟨Or.inl h1, h1 ▸ ha⟩
        · push_neg at h2
          exact ⟨Or.inr h1, h2.2⟩
      · rintro ⟨h1 | h1, h2⟩
        · exact Or.inl h1
        · by_cases hxa : x = a
          · exact Or.inl hxa
          · refine Or.inr ⟨h1, ?_⟩
            push_neg
            exact ⟨hxa, h2⟩

theorem nodup_firstSights (s : List String) (l : List String) :
    (firstSights s l).Nodup := by
  induction l generalizing s with
  | nil => simp [firstSights]
  | cons a t ih =>
    by_cases ha : a ∈ s
    · simpa [firstSights, ha] using ih s
    · simp only [firstSights, if_neg ha, List.nodup_cons]
      refine ⟨?_, ih (a :: s)⟩
      rw [mem_firstSights]
      simp

theorem dictOfIndex_eq {idx : List IndexEntry}
    (h : (idx.map IndexEntry.hash).Nodup) :
    dictOfIndex idx = idx.map (fun i => (i.hash, (⟨i, []⟩ : AggregatedFile))) := by
  suffices hgen : ∀ (l : List IndexEntry) (m : List (String × AggregatedFile)),
      (m.map Prod.fst ++ l.map IndexEntry.hash).Nodup →
      l.foldl (fun m i => dictSet m i.hash ⟨i, []⟩) m
        = m ++ l.map (fun i => (i.hash, (⟨i, []⟩ : AggregatedFile))) by
    simpa using hgen idx [] (by simpa using h)
  intro l
  induction l with
  | nil => simp
  | cons i t ih =>
    intro m hnd
    have hnotmem : i.hash ∉ m.map Prod.fst := by
      intro hmem
      rw [List.nodup_append] at hnd
      exact hnd.2.2 hmem (by simp)
    simp only [List.foldl_cons]
    rw [dictSet_of_not_mem _ hnotmem, ih]
    · simp
    · have heq : ((m ++ [(i.hash, (⟨i, []⟩ : AggregatedFile))]).map Prod.fst
          ++ t.map IndexEntry.hash)
          = m.map Prod.fst ++ (i :: t).map IndexEntry.hash := by
        simp
      rw [heq]
      exact hnd

theorem aggStep_map_fst (m : List (String × AggregatedFile)) (c : CachedFile) :
    (aggStep m c).map Prod.fst =
      if c.hash ∈ m.map Prod.fst then m.map Prod.fst else m.map Prod.fst ++ [c.hash] := by
  simp [aggStep, dictSet_map_fst]

theorem aggStep_nodup {m : List (String × AggregatedFile)}
    (hnd : (m.map Prod.fst).Nodup) (c : CachedFile) :
    ((aggStep m c).map Prod.fst).Nodup := by
  rw [aggStep_map_fst]
  by_cases hmem : c.hash ∈ m.map Prod.fst
  · simpa [hmem] using hnd
  · rw [if_neg hmem, List.nodup_append]
    refine ⟨hnd, List.nodup_singleton _, ?_⟩
    intro x hx hx1
    simp only [List.mem_singleton] at hx1
    exact hmem (hx1 ▸ hx)

theorem aggVal_hash {m : List (String × AggregatedFile)}
    (hm : ∀ p ∈ m, (Prod.snd p).index_entry.hash = p.1) (c : CachedFile) :
    (aggVal m c).index_entry.hash = c.hash := by
  have haf : ((dictGet m c.hash).getD ⟨⟨c.hash, none, []⟩, []⟩).index_entry.hash = c.hash := by
    cases hget : dictGet m c.hash with
    | none => simp
    | some a => simpa using hm _ (dictGet_mem hget)
  by_cases hseen :
      c.path ∈ ((dictGet m c.hash).getD ⟨⟨c.hash, none, []⟩, []⟩).index_entry.seen_paths <;>
    simp [aggVal, hseen, haf]

theorem aggVal_mem_cached (m : List (String × AggregatedFile)) (c : CachedFile) :
    c ∈ (aggVal m c).cached_files := by
  simp [aggVal]

theorem aggVal_mem_seen (m : List (String × AggregatedFile)) (c : CachedFile) :
    c.path ∈ (aggVal m c).index_entry.seen_paths := by
  by_cases hseen :
      c.path ∈ ((dictGet m c.hash).getD ⟨⟨c.hash, none, []⟩, []⟩).index_entry.seen_paths <;>
    simp [aggVal, hseen]

theorem aggVal_cached_sub {m : List (String × AggregatedFile)} {c : CachedFile}
    {a : AggregatedFile} (hget : dictGet m c.hash = some a) :
    ∀ x ∈ a.cached_files, x ∈ (aggVal m c).cached_files := by
  intro x hx
  simp [aggVal, hget, hx]

theorem aggVal_seen_sub {m : List (String × AggregatedFile)} {c : CachedFile}
    {a : AggregatedFile} (hget : dictGet m c.hash = some a) :
    ∀ x ∈ a.index_entry.seen_paths, x ∈ (aggVal m c).index_entry.seen_paths := by
  intro x hx
  by_cases hseen : c.path ∈ a.index_entry.seen_paths <;> simp [aggVal, hget, hseen, hx]

theorem aggStep_hash_match {m : List (String × AggregatedFile)}
    (hnd : (m.map Prod.fst).Nodup)
    (hm : ∀ p ∈ m, (Prod.snd p).index_entry.hash = p.1) (c : CachedFile) :
    ∀ q ∈ aggStep m c, (Prod.snd q).index_entry.hash = q.1 := by
  intro q hq
  rcases mem_dictSet_strong hnd hq with h1 | h1
  · rw [h1]
    exact aggVal_hash hm c
  · exact hm _ h1.1

theorem aggStep_mono {m : List (String × AggregatedFile)}
    (hnd : (m.map Prod.fst).Nodup) (c : CachedFile) :
    ∀ p ∈ m, ∀ q ∈ aggStep m c, q.1 = p.1 →
      (∀ x ∈ (Prod.snd p).cached_files, x ∈ (Prod.snd q).cached_files)
      ∧ (∀ x ∈ (Prod.snd p).index_entry.seen_paths,
          x ∈ (Prod.snd q).index_entry.seen_paths) := by
  intro p hp q hq hk
  rcases mem_dictSet_strong hnd hq with h1 | h1
  · have hpk : p.1 = c.hash := by rw [← hk, h1]
    have hkeys : c.hash ∈ m.map Prod.fst := hpk ▸ List.mem_map_of_mem Prod.fst hp
    obtain ⟨a, hget⟩ : ∃ a, dictGet m c.hash = some a := by
      cases hget : dictGet m c.hash with
      | none => exact absurd ((dictGet_eq_none m c.hash).mp hget) (by simpa using hkeys)
      | some a => exact ⟨a, rfl⟩
    have hpa : (c.hash, a) = p :=
      eq_of_mem_nodup_keys hnd (dictGet_mem hget) hp hpk.symm
    have ha2 : a = p.2 := by rw [← hpa]
    rw [h1]
    constructor
    · intro x hx
      exact aggVal_cached_sub hget x (ha2 ▸ hx)
    · intro x hx
      exact aggVal_seen_sub hget x (ha2 ▸ hx)
  · have heq : q = p := eq_of_mem_nodup_keys hnd h1.1 hp hk
    rw [heq]
    exact ⟨fun x hx => hx, fun x hx => hx⟩

theorem aggStep_self {m : List (String × AggregatedFile)}
    (hnd : (m.map Prod.fst).Nodup) (c : CachedFile) :
    ∀ q ∈ aggStep m c, q.1 = c.hash →
      c ∈ (Prod.snd q).cached_files ∧ c.path ∈ (Prod.snd q).index_entry.seen_paths := by
  intro q hq hk
  rcases mem_dictSet_strong hnd hq with h1 | h1
  · rw [h1]
    exact ⟨aggVal_mem_cached m c, aggVal_mem_seen m c⟩
  · exact absurd hk h1.2

theorem aggFold_spec :
    ∀ (cached : List CachedFile) (m : List (String × AggregatedFile)),
    (m.map Prod.fst).Nodup →
    (∀ p ∈ m, (Prod.snd p).index_entry.hash = p.1) →
    ((cached.foldl aggStep m).map Prod.fst
        = m.map Prod.fst ++ firstSights (m.map Prod.fst) (cached.map CachedFile.hash))
    ∧ ((cached.foldl aggStep m).map Prod.fst).Nodup
    ∧ (∀ p ∈ cached.foldl aggStep m, (Prod.snd p).index_entry.hash = p.1)
    ∧ (∀ p ∈ m, ∀ q ∈ cached.foldl aggStep m, q.1 = p.1 →
        (∀ x ∈ (Prod.snd p).cached_files, x ∈ (Prod.snd q).cached_files)
        ∧ (∀ x ∈ (Prod.snd p).index_entry.seen_paths,
            x ∈ (Prod.snd q).index_entry.seen_paths))
    ∧ (∀ c ∈ cached, ∀ q ∈ cached.foldl aggStep m, q.1 = c.hash →
        c ∈ (Prod.snd q).cached_files ∧ c.path ∈ (Prod.snd q).index_entry.seen_paths) := by
  intro cached
  induction cached with
  | nil =>
    intro m hnd hm
    refine ⟨by simp [firstSights], by simpa using hnd, by simpa using hm, ?_, by simp⟩
    intro p hp q hq hk
    have heq : q = p := eq_of_mem_nodup_keys hnd (by simpa using hq) hp hk
    rw [heq]
    exact ⟨fun x hx => hx, fun x hx => hx⟩
  | cons c t ih =>
    intro m hnd hm
    have hnd' : ((aggStep m c).map Prod.fst).Nodup := aggStep_nodup hnd c
    have hm' : ∀ p ∈ aggStep m c, (Prod.snd p).index_entry.hash = p.1 :=
      aggStep_hash_match hnd hm c
    obtain ⟨ihA, ihB, ihC, ihD, ihE⟩ := ih (aggStep m c) hnd' hm'
    have hfold : (c :: t).foldl aggStep m = t.foldl aggStep (aggStep m c) := by
      simp
    refine ⟨?_, by rwa [hfold], by rwa [hfold], ?_, ?_⟩
    · rw [hfold, ihA, aggStep_map_fst]
      by_cases hmem : c.hash ∈ m.map Prod.fst
      · rw [if_pos hmem]
        simp only [List.map_cons]
        rw [firstSights, if_pos hmem]
      · rw [if_neg hmem]
        simp only [List.map_cons]
        rw [firstSights, if_neg hmem]
        have hcong : firstSights (m.map Prod.fst ++ [c.hash]) (t.map CachedFile.hash)
            = firstSights (c.hash :: m.map Prod.fst) (t.map CachedFile.hash) := by
          refine firstSights_congr ?_ _
          intro x
          simp [or_comm]
        rw [hcong]
        simp
    · intro p hp q hq hk
      rw [hfold] at hq
      have hkeys : p.1 ∈ (aggStep m c).map Prod.fst := by
        rw [aggStep_map_fst]
        by_cases hmem : c.hash ∈ m.map Prod.fst
        · simpa [hmem] using List.mem_map_of_mem Prod.fst hp
        · rw [if_neg hmem]
          exact List.mem_append_left _ (List.mem_map_of_mem Prod.fst hp)
      obtain ⟨p', hp', hp'k⟩ := List.mem_map.mp hkeys
      have hstep := aggStep_mono hnd c p hp p' hp' hp'k
      have hrest := ihD p' hp' q hq (by rw [hk, ← hp'k])
      exact ⟨fun x hx => hrest.1 x (hstep.1 x hx), fun x hx => hrest.2 x (hstep.2 x hx)⟩
    · intro c' hc' q hq hk
      rw [hfold] at hq
      rcases List.mem_cons.mp hc' with hc1 | hc1
      · subst hc1
        have hkeys : c'.hash ∈ (aggStep m c').map Prod.fst := by
          rw [aggStep_map_fst]
          by_cases hmem : c'.hash ∈ m.map Prod.fst
          · simp [hmem]
          · rw [if_neg hmem]
            exact List.mem_append_right _ (by simp)
        obtain ⟨p', hp', hp'k⟩ := List.mem_map.mp hkeys
        have hself := aggStep_self hnd c' p' hp' hp'k
        have hrest := ihD p' hp' q hq (by rw [hk, ← hp'k])
        exact ⟨hrest.1 c' hself.1, hrest.2 c'.path hself.2⟩
      · exact ihE c' hc1 q hq hk

/-- C1: For every persisted index with pairwise-distinct hashes and every list
of cached files, `aggregate_files` returns exactly one `AggregatedFile` per
distinct hash occurring in the index or the cached files (the returned hash
list is duplicate-free and a hash occurs in it iff it occurs in the index or in
the cached files); for every cached file `c`, every returned aggregated file
whose `index_entry.hash` equals `c.hash` (unique, by the above) has `c` in its
`cached_files` and `c.path` in its `index_entry.seen_paths`; and the returned
list orders persisted entries first in their stored order, followed by
synthesized entries in the order their hashes were first observed during the
join. -/
theorem c1_aggregate_files_join (idx : List IndexEntry) (cached : List CachedFile)
    (hidx : (idx.map IndexEntry.hash).Nodup) :
    ((aggregate_files idx cached).map (fun a => a.index_entry.hash)
        = idx.map IndexEntry.hash
          ++ firstSights (idx.map IndexEntry.hash) (cached.map CachedFile.hash))
    ∧ ((aggregate_files idx cached).map (fun a => a.index_entry.hash)).Nodup
    ∧ (∀ h, h ∈ (aggregate_files idx cached).map (fun a => a.index_entry.hash)
        ↔ (h ∈ idx.map IndexEntry.hash ∨ h ∈ cached.map CachedFile.hash))
    ∧ (∀ c ∈ cached, ∀ a ∈ aggregate_files idx cached, a.index_entry.hash = c.hash →
        c ∈ a.cached_files ∧ c.path ∈ a.index_entry.seen_paths) := by
  have h0 : dictOfIndex idx = idx.map (fun i => (i.hash, (⟨i, []⟩ : AggregatedFile))) :=
    dictOfIndex_eq hidx
  have keys0 : (dictOfIndex idx).map Prod.fst = idx.map IndexEntry.hash := by
    rw [h0, List.map_map]
    rfl
  have hnd0 : ((dictOfIndex idx).map Prod.fst).Nodup := by rwa [keys0]
  have hm0 : ∀ p ∈ dictOfIndex idx, (Prod.snd p).index_entry.hash = p.1 := by
    intro p hp
    rw [h0] at hp
    obtain ⟨i, _, hi⟩ := List.mem_map.mp hp
    rw [← hi]
  obtain ⟨hA, hB, hC, _, hE⟩ := aggFold_spec cached (dictOfIndex idx) hnd0 hm0
  rw [keys0] at hA
  have hmapmap : (aggregate_files idx cached).map (fun a => a.index_entry.hash)
      = (cached.foldl aggStep (dictOfIndex idx)).map Prod.fst := by
    rw [aggregate_files, List.map_map]
    exact List.map_congr_left (fun p hp => hC p hp)
  refine ⟨by rw [hmapmap, hA], by rw [hmapmap]; exact hB, ?_, ?_⟩
  · intro h
    rw [hmapmap, hA]
    simp only [List.mem_append, mem_firstSights]
    constructor
    · rintro (h1 | ⟨h1, h2⟩)
      · exact Or.inl h1
      · exact Or.inr h1
    · rintro (h1 | h1)
      · exact Or.inl h1
      · by_cases h2 : h ∈ idx.map IndexEntry.hash
        · exact Or.inl h2
        · exact Or.inr ⟨h1, h2⟩
  · intro c hc a ha hk
    obtain ⟨p, hp, hsnd⟩ := List.mem_map.mp ha
    have hpk : p.1 = c.hash := by
      rw [← hC p hp, hsnd, hk]
    have := hE c hc p hp hpk
    rw [← hsnd]
    exact this

/-- Witness for C1 at a concrete input: one persisted entry, one cached file
with a fresh hash. -/
theorem c1_aggregate_files_join_witness :
    (([⟨"h1", none, []⟩] : List IndexEntry).map IndexEntry.hash).Nodup
    ∧ (((aggregate_files [⟨"h1", none, []⟩] [⟨⟨true, [['a']]⟩, 3, "h2"⟩]).map
          (fun a => a.index_entry.hash)
        = ([⟨"h1", none, []⟩] : List IndexEntry).map IndexEntry.hash
          ++ firstSights (([⟨"h1", none, []⟩] : List IndexEntry).map IndexEntry.hash)
              (([⟨⟨true, [['a']]⟩, 3, "h2"⟩] : List CachedFile).map CachedFile.hash))
      ∧ ((aggregate_files [⟨"h1", none, []⟩] [⟨⟨true, [['a']]⟩, 3, "h2"⟩]).map
          (fun a => a.index_entry.hash)).Nodup
      ∧ (∀ h, h ∈ (aggregate_files [⟨"h1", none, []⟩] [⟨⟨true, [['a']]⟩, 3, "h2"⟩]).map
            (fun a => a.index_entry.hash)
          ↔ (h ∈ ([⟨"h1", none, []⟩] : List IndexEntry).map IndexEntry.hash
              ∨ h ∈ ([⟨⟨true, [['a']]⟩, 3, "h2"⟩] : List CachedFile).map CachedFile.hash))
      ∧ (∀ c ∈ ([⟨⟨true, [['a']]⟩, 3, "h2"⟩] : List CachedFile),
          ∀ a ∈ aggregate_files [⟨"h1", none, []⟩] [⟨⟨true, [['a']]⟩, 3, "h2"⟩],
            a.index_entry.hash = c.hash →
              c ∈ a.cached_files ∧ c.path ∈ a.index_entry.seen_paths)) :=
  ⟨by decide, c1_aggregate_files_join [⟨"h1", none, []⟩] [⟨⟨true, [['a']]⟩, 3, "h2"⟩]
    (by decide)⟩

/-- A node of the file-system tree seen by `iter_regular_files`: a regular
file, a directory with named children, a symbolic link (with its target), or
some other kind of entry (socket, fifo, device). -/
inductive FsNode where
  | file : FsNode
  | dir (children : List (List Char × FsNode)) : FsNode
  | symlink (target : FsNode) : FsNode
  | other : FsNode

/-- Python string `<` on names (code-point lexicographic). -/
def charListLt : List Char → List Char → Bool
  | [], [] => false
  | [], _ :: _ => true
  | _ :: _, [] => false
  | a :: as, b :: bs => if a < b then true else if b < a then false else charListLt as bs

/-- Stable insertion of a named child into a name-sorted list. -/
def insertByName (x : List Char × FsNode) :
    List (List Char × FsNode) → List (List Char × FsNode)
  | [] => [x]
  | y :: t => if charListLt x.1 y.1 then x :: y :: t else y :: insertByName x t

/-- `sorted(path.iterdir())`: the children of a directory sorted by name
(Python `sorted` is stable). -/
def sortByName (l : List (List Char × FsNode)) : List (List Char × FsNode) :=
  l.foldr insertByName []

theorem mem_insertByName {x y : List Char × FsNode} {l : List (List Char × FsNode)}
    (h : y ∈ insertByName x l) : y = x ∨ y ∈ l := by
  induction l with
  | nil => simpa [insertByName] using h
  | cons z t ih =>
    by_cases hlt : charListLt x.1 z.1
    · simp only [insertByName, if_pos hlt] at h
      rcases List.mem_cons.mp h with h1 | h1
      · exact Or.inl h1
      · exact Or.inr h1
    · simp only [insertByName, if_neg hlt] at h
      rcases List.mem_cons.mp h with h1 | h1
      · exact Or.inr (h1 ▸ List.mem_cons_self _ _)
      · rcases ih h1 with h2 | h2
        · exact Or.inl h2
        · exact Or.inr (List.mem_cons_of_mem _ h2)

theorem mem_sortByName {y : List Char × FsNode} {l : List (List Char × FsNode)}
    (h : y ∈ sortByName l) : y ∈ l := by
  induction l with
  | nil => simp [sortByName] at h
  | cons z t ih =>
    rcases mem_insertByName h with h1 | h1
    · exact h1 ▸ List.mem_cons_self _ _
    · exact List.mem_cons_of_mem _ (ih h1)

/-- The path of a directory entry: `path / name`. -/
def childPath (p : PyPath) (name : List Char) : PyPath :=
  ⟨p.absolute, p.parts ++ [name]⟩

/-- `iter_regular_files`'s inner `walk_path` from `filemaster/util.py`: prune
symlinks (the guard `not path.is_symlink()` is applied to every visited path,
including the root); apply the filter to files and directories; yield regular
files; recurse into directories with children sorted by name. -/
def walk_path (filter_fn : PyPath → Bool) (path : PyPath) (node : FsNode) :
    List PyPath :=
  match node with
  | .symlink _ => []
  | .file => if filter_fn path then [path] else []
  | .other => []
  | .dir children =>
    if filter_fn path then
      ((sortByName children).attach.map
        (fun c => walk_path filter_fn (childPath path c.1.1) c.1.2)).flatten
    else []
termination_by sizeOf node
decreasing_by
  have hmem : c.1 ∈ children := mem_sortByName c.2
  have hsz : sizeOf c.1 < sizeOf children := List.sizeOf_lt_of_mem hmem
  have hsz2 : sizeOf c.1.2 < sizeOf c.1 := by
    obtain ⟨n, v⟩ := c.1
    simp only [Prod.mk.sizeOf_spec]
    omega
  simp only [FsNode.dir.sizeOf_spec]
  omega

/-- `iter_regular_files` from `filemaster/util.py`: `walk_path` applied to the
root.  `rootNode` is the tree entry the root path refers to. -/
def iter_regular_files (root : PyPath) (rootNode : FsNode)
    (filter_fn : PyPath → Bool) : List PyPath :=
  walk_path filter_fn root rootNode

theorem walk_path_dir (filter_fn : PyPath → Bool) (path : PyPath)
    (children : List (List Char × FsNode)) :
    walk_path filter_fn path (.dir children) =
      if filter_fn path then
        ((sortByName children).map
          (fun c => walk_path filter_fn (childPath path c.1) c.2)).flatten
      else [] := by
  rw [walk_path]
  by_cases hf : filter_fn path
  · rw [if_pos hf, if_pos hf]
    congr 1
    exact List.attach_map_val (sortByName children)
      (fun c => walk_path filter_fn (childPath path c.1) c.2)
  · rw [if_neg hf, if_neg hf]

/-- C8 (evaluation at the failing input): when the root itself is a symbolic
link to a directory containing one regular file, the tree walk yields no files
at all — the guard `not path.is_symlink()` in `walk_path` prunes the root —
while walking the link's target directly yields the file.  This contradicts
the claim (and the function's own comment, "Follow symlinks specified as the
root on the command line but ignore them otherwise"): the root symlink is not
followed. -/
theorem c8_walk_root_symlink_eval :
    iter_regular_files ⟨true, [['r']]⟩ (.symlink (.dir [(['a'], .file)]))
        (fun _ => true) = []
    ∧ iter_regular_files ⟨true, [['r']]⟩ (.dir [(['a'], .file)])
        (fun _ => true) = [⟨true, [['r'], ['a']]⟩] := by
  constructor
  · rw [iter_regular_files, walk_path]
  · rw [iter_regular_files, walk_path_dir]
    simp [sortByName, insertByName, childPath]
    rw [walk_path]
    simp

/-- Join path components with `'/'` (the component part of `str(Path(...))`). -/
def intercalateSlash : List (List Char) → List Char
  | [] => []
  | [c] => c
  | c :: t => c ++ '/' :: intercalateSlash t

/-- `str` on a `pathlib.Path` value: `'/'`-prefixed join for absolute paths,
`"."` for the empty relative path. -/
def pyPathToChars (p : PyPath) : List Char :=
  if p.absolute then '/' :: intercalateSlash p.parts
  else if p.parts = [] then ['.']
  else intercalateSlash p.parts

/-- Split a string on `'/'` (Python `str.split('/')`: keeps empty pieces). -/
def splitSlashAux (acc : List Char) : List Char → List (List Char)
  | [] => [acc.reverse]
  | c :: t => if c = '/' then acc.reverse :: splitSlashAux [] t else splitSlashAux (c :: acc) t

def splitSlash (s : List Char) : List (List Char) :=
  splitSlashAux [] s

/-- Whether a path string denotes an absolute path. -/
def startsWithSlash : List Char → Bool
  | a :: _ => a = '/'
  | [] => false

/-- `pathlib.Path` applied to a string: absolute iff it starts with `'/'`;
empty and `"."` components are dropped. -/
def parsePyPath (s : List Char) : PyPath :=
  ⟨startsWithSlash s, (splitSlash s).filter (fun c => decide (c ≠ [] ∧ c ≠ ['.']))⟩

theorem splitSlashAux_no_slash {c : List Char} (h : '/' ∉ c) :
    ∀ acc, splitSlashAux acc c = [acc.reverse ++ c] := by
  induction c with
  | nil => intro acc; simp [splitSlashAux]
  | cons a t ih =>
    intro acc
    simp only [List.mem_cons] at h
    push_neg at h
    have ha : ¬(a = '/') := fun e => h.1 e.symm
    rw [splitSlashAux, if_neg ha, ih h.2]
    simp

theorem splitSlashAux_append {x : List Char} (h : '/' ∉ x) (rest : List Char) :
    ∀ acc, splitSlashAux acc (x ++ '/' :: rest) = (acc.reverse ++ x) :: splitSlashAux [] rest := by
  induction x with
  | nil =>
    intro acc
    simp [splitSlashAux]
  | cons a t ih =>
    intro acc
    simp only [List.mem_cons] at h
    push_neg at h
    have ha : ¬(a = '/') := fun e => h.1 e.symm
    rw [List.cons_append, splitSlashAux, if_neg ha, ih h.2]
    simp

theorem splitSlash_intercalate {parts : List (List Char)} (hne : parts ≠ [])
    (h : ∀ c ∈ parts, '/' ∉ c) :
    splitSlash (intercalateSlash parts) = parts := by
  induction parts with
  | nil => exact absurd rfl hne
  | cons c t ih =>
    cases t with
    | nil =>
      rw [intercalateSlash, splitSlash]
      rw [splitSlashAux_no_slash (h c (by simp)) []]
      simp
    | cons d t' =>
      rw [intercalateSlash, splitSlash]
      rw [splitSlashAux_append (h c (by simp)) _ []]
      simp only [List.reverse_nil, List.nil_append]
      have := ih (by simp) (fun x hx => h x (List.mem_cons_of_mem _ hx))
      rw [splitSlash] at this
      rw [this]
      simp

theorem intercalateSlash_cons (c : List Char) (t : List (List Char)) :
    ∃ r, intercalateSlash (c :: t) = c ++ r := by
  cases t with
  | nil => exact ⟨[], by simp [intercalateSlash]⟩
  | cons d t' => exact ⟨'/' :: intercalateSlash (d :: t'), rfl⟩

theorem splitSlash_cons_slash (s : List Char) : splitSlash ('/' :: s) = [] :: splitSlash s := by
  rw [splitSlash, splitSlashAux, if_pos rfl]
  rfl

/-- Decoding the string form of a well-formed `pathlib.Path` value recovers the
value: `Path(str(p)) == p`. -/
theorem parse_pyPathToChars {p : PyPath} (h : p.WF) :
    parsePyPath (pyPathToChars p) = p := by
  obtain ⟨abs, parts⟩ := p
  have hwf : ∀ c ∈ parts, c ≠ [] ∧ c ≠ ['.'] ∧ '/' ∉ c := h
  have hfilter : (parts.filter (fun c => decide (c ≠ [] ∧ c ≠ ['.']))) = parts := by
    rw [List.filter_eq_self]
    intro a ha
    have := hwf a ha
    simp [this.1, this.2.1]
  cases abs with
  | true =>
    cases parts with
    | nil => decide
    | cons c t =>
      have hsplit : splitSlash (intercalateSlash (c :: t)) = c :: t :=
        splitSlash_intercalate (by simp) (fun x hx => (hwf x hx).2.2)
      have htc : pyPathToChars ⟨true, c :: t⟩ = '/' :: intercalateSlash (c :: t) := by
        simp [pyPathToChars]
      rw [parsePyPath, htc, splitSlash_cons_slash, hsplit]
      rw [List.filter_cons_of_neg (by simp)]
      rw [hfilter]
      simp [startsWithSlash]
  | false =>
    cases parts with
    | nil => decide
    | cons c t =>
      have hsplit : splitSlash (intercalateSlash (c :: t)) = c :: t :=
        splitSlash_intercalate (by simp) (fun x hx => (hwf x hx).2.2)
      have htc : pyPathToChars ⟨false, c :: t⟩ = intercalateSlash (c :: t) := by
        simp [pyPathToChars]
      obtain ⟨r, hr⟩ := intercalateSlash_cons c t
      obtain ⟨ch, ctail, hc⟩ : ∃ ch ctail, c = ch :: ctail := by
        cases c with
        | nil => exact absurd rfl (hwf [] (by simp)).1
        | cons a b => exact ⟨a, b, rfl⟩
      subst hc
      have hch : ch ≠ '/' := by
        intro he
        exact (hwf (ch :: ctail) (by simp)).2.2 (by rw [he]; simp)
      rw [parsePyPath, htc, hsplit, hfilter]
      have hform : intercalateSlash ((ch :: ctail) :: t) = ch :: (ctail ++ r) := by
        rw [hr]
        simp
      rw [hform]
      simp [startsWithSlash, hch]

/-- The JSON document produced for one `CachedFile` by
`namedtuple_encode(CachedFile, path=pathlib_path_encode)`: the `path` field is
replaced by its string form, the other fields are passed through. -/
structure CachedFileDoc where
  path : List Char
  mtime : Int
  hash : String
deriving DecidableEq, Repr

/-- Encoding side of `_cached_file_encode` from `filemaster/cache.py`
(`namedtuple_encode` with `pathlib_path_encode` on `path`). -/
def cachedFileEnc (c : CachedFile) : CachedFileDoc :=
  ⟨pyPathToChars c.path, c.mtime, c.hash⟩

/-- Decoding side of `_cached_file_encode`. -/
def cachedFileDec (d : CachedFileDoc) : CachedFile :=
  ⟨parsePyPath d.path, d.mtime, d.hash⟩

/-- The JSON document produced for one `IndexEntry` by `_index_encode`'s inner
`namedtuple_encode`: `intended_path` through `union_with_none_encode` of
`pathlib_path_encode` and `seen_paths` through `list_encode` of
`pathlib_path_encode`. -/
structure IndexEntryDoc where
  hash : String
  intended_path : Option (List Char)
  seen_paths : List (List Char)
deriving DecidableEq, Repr

/-- Encoding side of the `IndexEntry` codec from `filelord/index.py`
(`union_with_none_encode` is `Option.map`, `list_encode` is `List.map`). -/
def indexEntryEnc (e : IndexEntry) : IndexEntryDoc :=
  ⟨e.hash, e.intended_path.map pyPathToChars, e.seen_paths.map pyPathToChars⟩

/-- Decoding side of the `IndexEntry` codec. -/
def indexEntryDec (d : IndexEntryDoc) : IndexEntry :=
  ⟨d.hash, d.intended_path.map parsePyPath, d.seen_paths.map parsePyPath⟩

/-- `_cache_encode = list_encode(_cached_file_encode)`: encoding side. -/
def cacheEnc (l : List CachedFile) : List CachedFileDoc :=
  l.map cachedFileEnc

/-- `_cache_encode`: decoding side. -/
def cacheDec (l : List CachedFileDoc) : List CachedFile :=
  l.map cachedFileDec

/-- `_index_encode = list_encode(namedtuple_encode(IndexEntry, ...))`:
encoding side. -/
def indexEnc (l : List IndexEntry) : List IndexEntryDoc :=
  l.map indexEntryEnc

/-- `_index_encode`: decoding side. -/
def indexDec (l : List IndexEntryDoc) : List IndexEntry :=
  l.map indexEntryDec

/-- Well-formedness of an `IndexEntry`'s paths. -/
def IndexEntry.WF (e : IndexEntry) : Prop :=
  (∀ p, e.intended_path = some p → p.WF) ∧ (∀ p ∈ e.seen_paths, p.WF)

/-- C10: decoding the encoding is the identity for the codecs of `CachedFile`
and `IndexEntry` values built from `namedtuple_encode`, `list_encode`,
`union_with_none_encode` and `pathlib_path_encode`, for well-formed path
values (as every `pathlib.Path` value is); hence persistence through the
stores preserves values exactly, element by element and list by list. -/
theorem c10_codec_roundtrip (c : CachedFile) (e : IndexEntry)
    (lc : List CachedFile) (le : List IndexEntry)
    (hc : c.path.WF) (he : e.WF)
    (hlc : ∀ x ∈ lc, x.path.WF) (hle : ∀ x ∈ le, x.WF) :
    cachedFileDec (cachedFileEnc c) = c
    ∧ indexEntryDec (indexEntryEnc e) = e
    ∧ cacheDec (cacheEnc lc) = lc
    ∧ indexDec (indexEnc le) = le := by
  have hcf : ∀ x : CachedFile, x.path.WF → cachedFileDec (cachedFileEnc x) = x := by
    intro x hx
    obtain ⟨p, m, h⟩ := x
    simp only [cachedFileEnc, cachedFileDec]
    rw [parse_pyPathToChars hx]
  have hie : ∀ x : IndexEntry, x.WF → indexEntryDec (indexEntryEnc x) = x := by
    intro x hx
    obtain ⟨h, ip, sp⟩ := x
    simp only [indexEntryEnc, indexEntryDec]
    obtain ⟨hx1, hx2⟩ := hx
    congr 1
    · cases ip with
      | none => rfl
      | some p =>
        show some (parsePyPath (pyPathToChars p)) = some p
        rw [parse_pyPathToChars (hx1 p rfl)]
    · rw [List.map_map]
      have : ∀ p ∈ sp, (parsePyPath ∘ pyPathToChars) p = id p := by
        intro p hp
        simp only [Function.comp_apply, id]
        exact parse_pyPathToChars (hx2 p hp)
      rw [List.map_congr_left this, List.map_id]
  refine ⟨hcf c hc, hie e he, ?_, ?_⟩
  · rw [cacheEnc, cacheDec, List.map_map]
    have : ∀ x ∈ lc, (cachedFileDec ∘ cachedFileEnc) x = id x := by
      intro x hx
      simp only [Function.comp_apply, id]
      exact hcf x (hlc x hx)
    rw [List.map_congr_left this, List.map_id]
  · rw [indexEnc, indexDec, List.map_map]
    have : ∀ x ∈ le, (indexEntryDec ∘ indexEntryEnc) x = id x := by
      intro x hx
      simp only [Function.comp_apply, id]
      exact hie x (hle x hx)
    rw [List.map_congr_left this, List.map_id]

/-- Witness for C10 at concrete values: a cached file at `/a/b`, an index entry
with intended path `c/d` and one seen path, and singleton lists of each. -/
theorem c10_codec_roundtrip_witness :
    (PyPath.WF ⟨true, [['a'], ['b']]⟩)
    ∧ (IndexEntry.WF ⟨"h1", some ⟨false, [['c'], ['d']]⟩, [⟨true, [['a'], ['b']]⟩]⟩)
    ∧ (∀ x ∈ ([⟨⟨true, [['a'], ['b']]⟩, 7, "h1"⟩] : List CachedFile), x.path.WF)
    ∧ (∀ x ∈ ([⟨"h1", some ⟨false, [['c'], ['d']]⟩, [⟨true, [['a'], ['b']]⟩]⟩] :
        List IndexEntry), x.WF)
    ∧ cachedFileDec (cachedFileEnc ⟨⟨true, [['a'], ['b']]⟩, 7, "h1"⟩)
        = ⟨⟨true, [['a'], ['b']]⟩, 7, "h1"⟩
    ∧ indexEntryDec (indexEntryEnc
          ⟨"h1", some ⟨false, [['c'], ['d']]⟩, [⟨true, [['a'], ['b']]⟩]⟩)
        = ⟨"h1", some ⟨false, [['c'], ['d']]⟩, [⟨true, [['a'], ['b']]⟩]⟩
    ∧ cacheDec (cacheEnc [⟨⟨true, [['a'], ['b']]⟩, 7, "h1"⟩])
        = [⟨⟨true, [['a'], ['b']]⟩, 7, "h1"⟩]
    ∧ indexDec (indexEnc [⟨"h1", some ⟨false, [['c'], ['d']]⟩, [⟨true, [['a'], ['b']]⟩]⟩])
        = [⟨"h1", some ⟨false, [['c'], ['d']]⟩, [⟨true, [['a'], ['b']]⟩]⟩] := by
  have h1 : PyPath.WF ⟨true, [['a'], ['b']]⟩ := by decide
  have h2 : IndexEntry.WF ⟨"h1", some ⟨false, [['c'], ['d']]⟩, [⟨true, [['a'], ['b']]⟩]⟩ := by
    constructor
    · intro p hp
      cases hp
      decide
    · intro p hp
      simp only [List.mem_singleton] at hp
      rw [hp]
      decide
  have h3 : ∀ x ∈ ([⟨⟨true, [['a'], ['b']]⟩, 7, "h1"⟩] : List CachedFile), x.path.WF := by
    intro x hx
    simp only [List.mem_singleton] at hx
    rw [hx]
    decide
  have h4 : ∀ x ∈ ([⟨"h1", some ⟨false, [['c'], ['d']]⟩, [⟨true, [['a'], ['b']]⟩]⟩] :
      List IndexEntry), x.WF := by
    intro x hx
    simp only [List.mem_singleton] at hx
    rw [hx]
    exact h2
  obtain ⟨g1, g2, g3, g4⟩ := c10_codec_roundtrip
    ⟨⟨true, [['a'], ['b']]⟩, 7, "h1"⟩
    ⟨"h1", some ⟨false, [['c'], ['d']]⟩, [⟨true, [['a'], ['b']]⟩]⟩
    [⟨⟨true, [['a'], ['b']]⟩, 7, "h1"⟩]
    [⟨"h1", some ⟨false, [['c'], ['d']]⟩, [⟨true, [['a'], ['b']]⟩]⟩]
    h1 h2 h3 h4
  exact ⟨h1, h2, h3, h4, g1, g2, g3, g4⟩

/-- `MatchedFile` namedtuple from `filemaster/repository.py`. -/
structure MatchedFile where
  path : PyPath
  matched_root : PyPath
  aggregated_file : AggregatedFile
deriving DecidableEq, Repr

/-- Whether the first list is a leading run of the second. -/
def partsLeq : List (List Char) → List (List Char) → Bool
  | [], _ => true
  | _ :: _, [] => false
  | a :: as, b :: bs => a == b && partsLeq as bs

/-- `is_descendant_of` from `filemaster/util.py`:
`descendant_path.relative_to(path)` succeeds iff the paths agree on
absoluteness and `path`'s components lead `descendant_path`'s (a path is a
descendant of itself). -/
def is_descendant_of (descendant_path path : PyPath) : Bool :=
  descendant_path.absolute == path.absolute && partsLeq path.parts descendant_path.parts

/-- `Path.relative_to`: the remainder of `p` under `root`, or `none` when `p`
is not below `root` (Python raises `ValueError` there). -/
def relative_to (p root : PyPath) : Option PyPath :=
  if is_descendant_of p root then some ⟨false, p.parts.drop root.parts.length⟩ else none

/-- Comparison used by `sorted` on `MatchedFile` namedtuples: paths compare by
their string form, ties fall through to `matched_root` (the further namedtuple
fields are never reached for entries distinct in path and root). -/
def mfLt (a b : MatchedFile) : Bool :=
  charListLt (pyPathToChars a.path) (pyPathToChars b.path)
  || (pyPathToChars a.path == pyPathToChars b.path
      && charListLt (pyPathToChars a.matched_root) (pyPathToChars b.matched_root))

/-- Stable insertion into an `mfLt`-sorted list. -/
def insMF (x : MatchedFile) : List MatchedFile → List MatchedFile
  | [] => [x]
  | y :: t => if mfLt x y then x :: y :: t else y :: insMF x t

/-- `sorted` on matched files (stable). -/
def mfSort (l : List MatchedFile) : List MatchedFile :=
  l.foldr insMF []

/-- `FileSet._iter_matched_roots` from `filemaster/repository.py`: the roots
of the file set containing the path, in order. -/
def matched_roots (roots : List PyPath) (path : PyPath) : List PyPath :=
  roots.filter (fun r => is_descendant_of path r)

/-- `Repository.get_matched_files` from `filemaster/repository.py`: one
`MatchedFile` per aggregated file, cached file and matching root, sorted. -/
def get_matched_files (aggs : List AggregatedFile) (roots : List PyPath) :
    List MatchedFile :=
  mfSort ((aggs.map (fun a =>
    (a.cached_files.map (fun c =>
      (matched_roots roots c.path).map (fun r => ⟨c.path, r, a⟩))).flatten)).flatten)

/-- The user-visible errors `set_intended_paths` can raise. -/
inductive SetError where
  | sameFile (p : PyPath)
  | identicalFiles (p q : PyPath)
  | intendedOutsideRoot (p : PyPath)
deriving DecidableEq, Repr

/-- Lookup in the `matched_files_by_hash` dictionary. -/
def lookupMF (m : List (String × MatchedFile)) (k : String) : Option MatchedFile :=
  match m with
  | [] => none
  | (k', v) :: t => if k' = k then some v else lookupMF t k

/-- The first loop of `set_intended_paths` from `filemaster/repository.py`:
record each matched file under its hash; on meeting a hash a second time,
raise (`fail_identical_files`) — a distinct message when the two paths are
equal (same file selected through multiple command line arguments) than when
they differ (identical files). -/
def buildByHash : List MatchedFile → List (String × MatchedFile) →
    Except SetError (List (String × MatchedFile))
  | [], acc => .ok acc
  | i :: rest, acc =>
    match lookupMF acc i.aggregated_file.index_entry.hash with
    | some matched_file =>
      if matched_file.path = i.path then .error (.sameFile matched_file.path)
      else .error (.identicalFiles matched_file.path i.path)
    | none => buildByHash rest (acc ++ [(i.aggregated_file.index_entry.hash, i)])

/-- `process_aggregated_file` from `set_intended_paths`: replace the intended
path of an aggregated file selected by hash, validating that the new intended
path lies under the repository root (`relative_to`). -/
def process_aggregated_file (root : PyPath) (intended_path_fn : MatchedFile → Option PyPath)
    (mfh : List (String × MatchedFile)) (a : AggregatedFile) :
    Except SetError AggregatedFile :=
  match lookupMF mfh a.index_entry.hash with
  | none => .ok a
  | some matched_file =>
    match intended_path_fn matched_file with
    | none => .ok { a with index_entry := { a.index_entry with intended_path := none } }
    | some np =>
      match relative_to np root with
      | none => .error (.intendedOutsideRoot np)
      | some rel =>
        .ok { a with index_entry := { a.index_entry with intended_path := some rel } }

/-- `set_intended_paths` from `filemaster/repository.py`: gather matched files
by hash (raising on a duplicate hash), then map the replacement over the
aggregated-file list.  The Python function assigns the new list to
`repo.aggregated_files` only after both phases succeed; an error therefore
leaves every index entry unchanged, which the `Except` result models. -/
def set_intended_paths (root : PyPath) (aggs : List AggregatedFile)
    (roots : List PyPath) (intended_path_fn : MatchedFile → Option PyPath) :
    Except SetError (List AggregatedFile) := do
  let mfh ← buildByHash (get_matched_files aggs roots) []
  aggs.mapM (process_aggregated_file root intended_path_fn mfh)

theorem lookupMF_eq_none (m : List (String × MatchedFile)) (k : String) :
    lookupMF m k = none ↔ k ∉ m.map Prod.fst := by
  induction m with
  | nil => simp [lookupMF]
  | cons p t ih =>
    obtain ⟨k', v⟩ := p
    by_cases h : k' = k
    · subst h
      simp [lookupMF]
    · have h' : ¬k = k' := fun e => h e.symm
      simp [lookupMF, h, ih, h']

theorem lookupMF_mem {m : List (String × MatchedFile)} {k : String} {v : MatchedFile}
    (h : lookupMF m k = some v) : (k, v) ∈ m := by
  induction m with
  | nil => simp [lookupMF] at h
  | cons p t ih =>
    obtain ⟨k', v'⟩ := p
    by_cases hk : k' = k
    · simp [lookupMF, hk] at h
      subst hk h
      exact List.mem_cons_self _ _
    · simp [lookupMF, hk] at h
      exact List.mem_cons_of_mem _ (ih h)

theorem buildByHash_error_of_dup :
    ∀ (l : List MatchedFile) (acc : List (String × MatchedFile)),
    (acc.map Prod.fst).Nodup →
    (∀ p ∈ acc, (Prod.snd p).aggregated_file.index_entry.hash = p.1) →
    ¬ ((acc.map Prod.fst
        ++ l.map (fun m => m.aggregated_file.index_entry.hash)).Nodup) →
    ∃ e l1 m2 l2 m1,
      l = l1 ++ m2 :: l2
      ∧ ((m1.aggregated_file.index_entry.hash, m1) ∈ acc ∨ m1 ∈ l1)
      ∧ m1.aggregated_file.index_entry.hash = m2.aggregated_file.index_entry.hash
      ∧ buildByHash l acc = .error e
      ∧ ((m1.path = m2.path ∧ e = .sameFile m1.path)
         ∨ (m1.path ≠ m2.path ∧ e = .identicalFiles m1.path m2.path)) := by
  intro l
  induction l with
  | nil =>
    intro acc hnd _ hdup
    exact absurd (by simpa using hnd) hdup
  | cons m t ih =>
    intro acc hnd hmatch hdup
    cases hlk : lookupMF acc m.aggregated_file.index_entry.hash with
    | some prev =>
      have hprev : (m.aggregated_file.index_entry.hash, prev) ∈ acc := lookupMF_mem hlk
      have hph : prev.aggregated_file.index_entry.hash
          = m.aggregated_file.index_entry.hash := hmatch _ hprev
      by_cases hpq : prev.path = m.path
      · refine ⟨.sameFile prev.path, [], m, t, prev, by simp, Or.inl (hph ▸ hprev), hph,
          ?_, Or.inl ⟨hpq, rfl⟩⟩
        simp [buildByHash, hlk, hpq]
      · refine ⟨.identicalFiles prev.path m.path, [], m, t, prev, by simp,
          Or.inl (hph ▸ hprev), hph, ?_, Or.inr ⟨hpq, rfl⟩⟩
        simp [buildByHash, hlk, hpq]
    | none =>
      have hnotmem : m.aggregated_file.index_entry.hash ∉ acc.map Prod.fst :=
        (lookupMF_eq_none _ _).mp hlk
      have hnd' : ((acc ++ [(m.aggregated_file.index_entry.hash, m)]).map Prod.fst).Nodup := by
        rw [List.map_append, List.nodup_append]
        refine ⟨hnd, by simp, ?_⟩
        intro x hx hx1
        simp only [List.map_cons, List.map_nil, List.mem_singleton] at hx1
        exact hnotmem (hx1 ▸ hx)
      have hmatch' : ∀ p ∈ acc ++ [(m.aggregated_file.index_entry.hash, m)],
          (Prod.snd p).aggregated_file.index_entry.hash = p.1 := by
        intro p hp
        rcases List.mem_append.mp hp with hp1 | hp1
        · exact hmatch p hp1
        · simp only [List.mem_singleton] at hp1
          rw [hp1]
      have hdup' : ¬ (((acc ++ [(m.aggregated_file.index_entry.hash, m)]).map Prod.fst
          ++ t.map (fun x => x.aggregated_file.index_entry.hash)).Nodup) := by
        intro hcontra
        apply hdup
        simp only [List.map_cons]
        simp only [List.map_append, List.append_assoc] at hcontra
        simpa using hcontra
      obtain ⟨e, l1, m2, l2, m1, heq, hm1, hh, hrun, hflavor⟩ :=
        ih (acc ++ [(m.aggregated_file.index_entry.hash, m)]) hnd' hmatch' hdup'
      refine ⟨e, m :: l1, m2, l2, m1, by rw [heq]; rfl, ?_, hh, ?_, hflavor⟩
      · rcases hm1 with hm1 | hm1
        · rcases List.mem_append.mp hm1 with h1 | h1
          · exact Or.inl h1
          · simp only [List.mem_singleton, Prod.mk.injEq] at h1
            exact Or.inr (h1.2 ▸ List.mem_cons_self _ _)
        · exact Or.inr (List.mem_cons_of_mem _ hm1)
      · rw [buildByHash]
        rw [hlk]
        exact hrun

/-- C9: if the selection matches two files (two matched-list occurrences) that
share a content hash, `set_intended_paths` raises a `UserError` before any
index entry is mutated (the error result carries no updated aggregated list;
the Python assignment to `repo.aggregated_files` is only reached on success),
and the error distinguishes the two cases: equal paths give the
same-file-selected-through-multiple-arguments message, distinct paths the
cannot-apply-to-identical-files-simultaneously message. -/
theorem c9_identical_files_guard (root : PyPath) (aggs : List AggregatedFile)
    (roots : List PyPath) (intended_path_fn : MatchedFile → Option PyPath)
    (hdup : ¬ ((get_matched_files aggs roots).map
        (fun m => m.aggregated_file.index_entry.hash)).Nodup) :
    ∃ e, set_intended_paths root aggs roots intended_path_fn = .error e
      ∧ ∃ l1 m2 l2 m1, get_matched_files aggs roots = l1 ++ m2 :: l2 ∧ m1 ∈ l1
        ∧ m1.aggregated_file.index_entry.hash = m2.aggregated_file.index_entry.hash
        ∧ ((m1.path = m2.path ∧ e = .sameFile m1.path)
           ∨ (m1.path ≠ m2.path ∧ e = .identicalFiles m1.path m2.path)) := by
  obtain ⟨e, l1, m2, l2, m1, heq, hm1, hh, hrun, hflavor⟩ :=
    buildByHash_error_of_dup (get_matched_files aggs roots) [] (by simp) (by simp)
      (by simpa using hdup)
  have hm1' : m1 ∈ l1 := by
    rcases hm1 with hm1 | hm1
    · simp at hm1
    · exact hm1
  refine ⟨e, ?_, l1, m2, l2, m1, heq, hm1', hh, hflavor⟩
  unfold set_intended_paths
  rw [hrun]
  rfl

/-- Witness for C9 at a concrete input: one aggregated file whose content is
cached at two distinct paths, both matched by the root selection. -/
theorem c9_identical_files_guard_witness :
    (¬ ((get_matched_files
          [⟨⟨"h", none, []⟩, [⟨⟨true, [['a']]⟩, 1, "h"⟩, ⟨⟨true, [['b']]⟩, 1, "h"⟩]⟩]
          [⟨true, []⟩]).map
        (fun m => m.aggregated_file.index_entry.hash)).Nodup)
    ∧ ∃ e, set_intended_paths ⟨true, []⟩
          [⟨⟨"h", none, []⟩, [⟨⟨true, [['a']]⟩, 1, "h"⟩, ⟨⟨true, [['b']]⟩, 1, "h"⟩]⟩]
          [⟨true, []⟩] (fun _ => none) = .error e
      ∧ ∃ l1 m2 l2 m1, get_matched_files
            [⟨⟨"h", none, []⟩, [⟨⟨true, [['a']]⟩, 1, "h"⟩, ⟨⟨true, [['b']]⟩, 1, "h"⟩]⟩]
            [⟨true, []⟩] = l1 ++ m2 :: l2 ∧ m1 ∈ l1
        ∧ m1.aggregated_file.index_entry.hash = m2.aggregated_file.index_entry.hash
        ∧ ((m1.path = m2.path ∧ e = .sameFile m1.path)
           ∨ (m1.path ≠ m2.path ∧ e = .identicalFiles m1.path m2.path)) :=
  ⟨by decide, c9_identical_files_guard ⟨true, []⟩
    [⟨⟨"h", none, []⟩, [⟨⟨true, [['a']]⟩, 1, "h"⟩, ⟨⟨true, [['b']]⟩, 1, "h"⟩]⟩]
    [⟨true, []⟩] (fun _ => none) (by decide)⟩

/-- Kind of an existing file-system entry, as the apply planner observes it
through `exists()` and `is_dir()`. -/
inductive NodeKind where
  | file
  | dir
  | other
deriving DecidableEq, Repr

/-- The file system as a finite map from paths to entry kinds. -/
abbrev FS := List (PyPath × NodeKind)

def fsKind (fs : FS) (p : PyPath) : Option NodeKind :=
  match fs with
  | [] => none
  | (q, k) :: t => if q = p then some k else fsKind t p

/-- `path.exists()`. -/
def fsExists (fs : FS) (p : PyPath) : Bool :=
  (fsKind fs p).isSome

/-- `path.is_dir()`. -/
def fsIsDir (fs : FS) (p : PyPath) : Bool :=
  fsKind fs p == some NodeKind.dir

/-- `path.parent`. -/
def PyPath.parent (p : PyPath) : PyPath :=
  ⟨p.absolute, p.parts.dropLast⟩

/-- `root / other` (`pathlib` join: an absolute right operand wins). -/
def pyJoin (root p : PyPath) : PyPath :=
  if p.absolute then p else ⟨root.absolute, root.parts ++ p.parts⟩

/-- The `UserError`s of `apply_intended_paths` (`filemaster/repository.py`),
plus two model-level outcomes: `recursionDepth` stands for the unbounded
recursion of `check_create_directory` when no ancestor of a destination exists
(Python would die with `RecursionError`), `assertFailed` for the
`assert not dest.exists()` in `move_file`. -/
inductive ApplyError where
  | destExists (source dest : PyPath)
  | parentNotDir (source parentPath : PyPath)
  | destCollides (source1 source2 dest : PyPath)
  | parentIsDest (source1 source2 dest : PyPath)
  | recursionDepth
  | assertFailed
deriving DecidableEq, Repr

/-- `check_create_directory` from `apply_intended_paths`, with the recursion
depth bounded by the component count of the starting path (the bound the real
recursion respects whenever some ancestor exists): an existing path must be a
directory; a missing one is recorded — parents first — as a directory to
create. -/
def ccdAux (fs : FS) (matched_file : MatchedFile) :
    Nat → PyPath → List (PyPath × MatchedFile) →
    Except ApplyError (List (PyPath × MatchedFile))
  | fuel, path, created =>
    if fsExists fs path then
      if fsIsDir fs path then .ok created
      else .error (.parentNotDir matched_file.path path)
    else if path ∈ created.map Prod.fst then .ok created
    else
      match fuel with
      | 0 => .error .recursionDepth
      | n + 1 => do
        let created' ← ccdAux fs matched_file n path.parent created
        .ok (created' ++ [(path, matched_file)])

def check_create_directory (fs : FS) (path : PyPath) (matched_file : MatchedFile)
    (created : List (PyPath × MatchedFile)) :
    Except ApplyError (List (PyPath × MatchedFile)) :=
  ccdAux fs matched_file path.parts.length path created

/-- Association lookup in `moved_files_by_destination` /
`moved_files_by_created_directories`. -/
def lookupPath (m : List (PyPath × MatchedFile)) (k : PyPath) : Option MatchedFile :=
  match m with
  | [] => none
  | (k', v) :: t => if k' = k then some v else lookupPath t k

/-- The two dictionaries the planner records planned changes in before
performing them. -/
structure PlanState where
  created : List (PyPath × MatchedFile)
  moves : List (PyPath × MatchedFile)
deriving DecidableEq, Repr

/-- `check_move_file` from `apply_intended_paths`: existing destination is an
error; all needed parents must be creatable; a second move to the same
destination is an error. -/
def check_move_file (fs : FS) (dest : PyPath) (matched_file : MatchedFile)
    (st : PlanState) : Except ApplyError PlanState :=
  if fsExists fs dest then .error (.destExists matched_file.path dest)
  else do
    let created' ← check_create_directory fs dest.parent matched_file st.created
    match lookupPath st.moves dest with
    | some other => .error (.destCollides other.path matched_file.path dest)
    | none => .ok ⟨created', st.moves ++ [(dest, matched_file)]⟩

/-- The first validation loop of `apply_intended_paths`: for every matched
file with an intended path different from its current path, record the move. -/
def gather_moves (fs : FS) (root : PyPath) :
    List MatchedFile → PlanState → Except ApplyError PlanState
  | [], st => .ok st
  | i :: rest, st =>
    match i.aggregated_file.index_entry.intended_path with
    | none => gather_moves fs root rest st
    | some intended_path =>
      if i.path = pyJoin root intended_path then gather_moves fs root rest st
      else do
        let st' ← check_move_file fs (pyJoin root intended_path) i st
        gather_moves fs root rest st'

/-- The second validation loop of `apply_intended_paths`: a move destination
may not also be a directory the plan needs to create. -/
def check_dir_move_conflicts (created : List (PyPath × MatchedFile)) :
    List (PyPath × MatchedFile) → Option ApplyError
  | [] => none
  | (dest, matched_file) :: rest =>
    match lookupPath created dest with
    | some other => some (.parentIsDest other.path matched_file.path dest)
    | none => check_dir_move_conflicts created rest

/-- Sorted iteration order of `moved_files_by_created_directories` (Python
sorts the path keys; string order lists parents before children). -/
def insDir (x : PyPath × MatchedFile) :
    List (PyPath × MatchedFile) → List (PyPath × MatchedFile)
  | [] => [x]
  | y :: t =>
    if charListLt (pyPathToChars x.1) (pyPathToChars y.1) then x :: y :: t
    else y :: insDir x t

def sortDirs (l : List (PyPath × MatchedFile)) : List (PyPath × MatchedFile) :=
  l.foldr insDir []

/-- `path.mkdir()`. -/
def fsMkdir (fs : FS) (p : PyPath) : FS :=
  fs ++ [(p, NodeKind.dir)]

/-- `source.rename(dest)`. -/
def fsRename (fs : FS) (src dest : PyPath) : FS :=
  match fsKind fs src with
  | none => fs
  | some k => (fs.filter (fun q => decide (q.1 ≠ src))) ++ [(dest, k)]

/-- The execution loop over `moved_files_by_destination`, including the
`assert not dest.exists()` guard of `move_file`. -/
def executeMoves (fs : FS) : List (PyPath × MatchedFile) → FS × Option ApplyError
  | [] => (fs, none)
  | (dest, matched_file) :: rest =>
    if fsExists fs dest then (fs, some .assertFailed)
    else executeMoves (fsRename fs matched_file.path dest) rest

/-- `apply_intended_paths` from `filemaster/repository.py`: validate every
move and directory creation (no file-system call other than reads), then — and
only then — create the directories in sorted order and perform the renames. -/
def apply_intended_paths (fs : FS) (root : PyPath) (aggs : List AggregatedFile)
    (roots : List PyPath) : FS × Option ApplyError :=
  match gather_moves fs root (get_matched_files aggs roots) ⟨[], []⟩ with
  | .error e => (fs, some e)
  | .ok st =>
    match check_dir_move_conflicts st.created st.moves with
    | some e => (fs, some e)
    | none =>
      executeMoves ((sortDirs st.created).foldl (fun acc d => fsMkdir acc d.1) fs) st.moves

instance exceptDecEq {e a : Type} [DecidableEq e] [DecidableEq a] :
    DecidableEq (Except e a)
  | .error x, .error y =>
    if h : x = y then .isTrue (by rw [h]) else .isFalse (by intro hc; cases hc; exact h rfl)
  | .error _, .ok _ => .isFalse (by intro hc; cases hc)
  | .ok _, .error _ => .isFalse (by intro hc; cases hc)
  | .ok x, .ok y =>
    if h : x = y then .isTrue (by rw [h]) else .isFalse (by intro hc; cases hc; exact h rfl)

/-- C5: if either validation phase of the apply planner raises an error
(destination exists, two moves collide, an ancestor of a destination exists
but is not a directory — including the model's bounded-recursion outcome — or
an ancestor of a destination is itself a move destination), then no directory
is created and no file is renamed: `apply_intended_paths` returns the
file system exactly as it was, paired with that error.  Directory creation and
renames happen only after both phases succeed. -/
theorem c5_apply_preflight_safety (fs : FS) (root : PyPath)
    (aggs : List AggregatedFile) (roots : List PyPath) (e : ApplyError)
    (herr : gather_moves fs root (get_matched_files aggs roots) ⟨[], []⟩ = .error e
      ∨ ∃ st, gather_moves fs root (get_matched_files aggs roots) ⟨[], []⟩ = .ok st
          ∧ check_dir_move_conflicts st.created st.moves = some e) :
    apply_intended_paths fs root aggs roots = (fs, some e) := by
  rcases herr with herr | ⟨st, hok, hconf⟩
  · simp only [apply_intended_paths, herr]
  · simp only [apply_intended_paths, hok, hconf]

/-- Witness for C5 at a concrete input: a file at `/a` whose intended path
`b` is already occupied, under root `/`. -/
theorem c5_apply_preflight_safety_witness :
    (gather_moves
        [(⟨true, []⟩, NodeKind.dir), (⟨true, [['a']]⟩, NodeKind.file),
         (⟨true, [['b']]⟩, NodeKind.file)]
        ⟨true, []⟩
        (get_matched_files
          [⟨⟨"h", some ⟨false, [['b']]⟩, []⟩, [⟨⟨true, [['a']]⟩, 1, "h"⟩]⟩]
          [⟨true, []⟩])
        ⟨[], []⟩
      = .error (.destExists ⟨true, [['a']]⟩ ⟨true, [['b']]⟩)
      ∨ ∃ st, gather_moves
          [(⟨true, []⟩, NodeKind.dir), (⟨true, [['a']]⟩, NodeKind.file),
           (⟨true, [['b']]⟩, NodeKind.file)]
          ⟨true, []⟩
          (get_matched_files
            [⟨⟨"h", some ⟨false, [['b']]⟩, []⟩, [⟨⟨true, [['a']]⟩, 1, "h"⟩]⟩]
            [⟨true, []⟩])
          ⟨[], []⟩ = .ok st
        ∧ check_dir_move_conflicts st.created st.moves
          = some (.destExists ⟨true, [['a']]⟩ ⟨true, [['b']]⟩))
    ∧ apply_intended_paths
        [(⟨true, []⟩, NodeKind.dir), (⟨true, [['a']]⟩, NodeKind.file),
         (⟨true, [['b']]⟩, NodeKind.file)]
        ⟨true, []⟩
        [⟨⟨"h", some ⟨false, [['b']]⟩, []⟩, [⟨⟨true, [['a']]⟩, 1, "h"⟩]⟩]
        [⟨true, []⟩]
      = ([(⟨true, []⟩, NodeKind.dir), (⟨true, [['a']]⟩, NodeKind.file),
          (⟨true, [['b']]⟩, NodeKind.file)],
         some (.destExists ⟨true, [['a']]⟩ ⟨true, [['b']]⟩)) :=
  ⟨Or.inl (by decide),
   c5_apply_preflight_safety
    [(⟨true, []⟩, NodeKind.dir), (⟨true, [['a']]⟩, NodeKind.file),
     (⟨true, [['b']]⟩, NodeKind.file)]
    ⟨true, []⟩
    [⟨⟨"h", some ⟨false, [['b']]⟩, []⟩, [⟨⟨true, [['a']]⟩, 1, "h"⟩]⟩]
    [⟨true, []⟩]
    (.destExists ⟨true, [['a']]⟩ ⟨true, [['b']]⟩)
    (Or.inl (by decide))⟩

/-- One regular file as the tree scan observes it: its path, stat mtime, stat
size, and the content digest `file_digest` would compute for it. -/
structure FsFile where
  path : PyPath
  mtime : Int
  size : Nat
  hash : String
deriving DecidableEq, Repr

/-- The chunk sizes `copy_file` reads (`1 << 24` bytes at a time); one
data-read progress event is emitted per nonempty chunk.  The first argument is
fuel, always called with at least the number of chunks. -/
def chunkSizesAux : Nat → Nat → List Nat
  | 0, _ => []
  | _, 0 => []
  | fuel + 1, n + 1 =>
    min (n + 1) (1 <<< 24) :: chunkSizesAux fuel (n + 1 - 1 <<< 24)

def chunkSizes (n : Nat) : List Nat :=
  chunkSizesAux n n

/-- The observable steps of one run of `FileCache.update`: data-read progress
events while hashing, a write-log append, inclusion of an entry in the
in-memory `new_entries` list, a file-checked progress event, the atomic save
of the cache store, and the truncation (flush) of the write log. -/
inductive UEvent where
  | dataRead (n : Nat)
  | appendLog (e : CachedFile)
  | addNew (e : CachedFile)
  | fileChecked
  | saveStore
  | flushLog
deriving DecidableEq, Repr

/-- The `entries_by_path_mtime` dictionary lookup: entries from the persisted
store followed by the write-log records, a later entry overriding an earlier
one with the same `(path, mtime)` key. -/
def lookupPM (entries : List CachedFile) (p : PyPath) (m : Int) : Option CachedFile :=
  entries.reverse.find? (fun e => e.path == p && e.mtime == m)

/-- The entry `FileCache.update` stores for a cache miss: mtime 0 instead of
an observed mtime that is not strictly less than `current_mtime` (the mtime
sentinel forcing a re-hash), otherwise the observed mtime. -/
def missEntry (current_mtime : Int) (f : FsFile) : CachedFile :=
  ⟨f.path, if f.mtime ≥ current_mtime then 0 else f.mtime, f.hash⟩

/-- The loop body of `FileCache.update` for one scanned file, as events: a
table hit reuses the entry; a miss hashes the file (emitting data-read
events), builds `missEntry`, and appends it to the write log before adding it
to `new_entries`. -/
def fileEvents (table : List CachedFile) (current_mtime : Int) (f : FsFile) :
    List UEvent :=
  match lookupPM table f.path f.mtime with
  | some e => [.addNew e, .fileChecked]
  | none =>
    (chunkSizes f.size).map UEvent.dataRead
      ++ [.appendLog (missEntry current_mtime f),
          .addNew (missEntry current_mtime f), .fileChecked]

/-- The event stream of one run of `FileCache.update` over the scanned files,
ending with the atomic store save and the write-log flush. -/
def updateEventsAux (table : List CachedFile) (current_mtime : Int) :
    List FsFile → List UEvent
  | [] => [.saveStore, .flushLog]
  | f :: rest => fileEvents table current_mtime f ++ updateEventsAux table current_mtime rest

def updateEvents (store logRecs : List CachedFile) (current_mtime : Int)
    (files : List FsFile) : List UEvent :=
  updateEventsAux (store ++ logRecs) current_mtime files

/-- On-disk and in-memory state while `update` runs: the persisted store, the
write-log records on disk, and the in-memory `new_entries` list. -/
structure UState where
  store : List CachedFile
  log : List CachedFile
  newEntries : List CachedFile
deriving DecidableEq, Repr

def applyEvent (s : UState) : UEvent → UState
  | .dataRead _ => s
  | .appendLog e => { s with log := s.log ++ [e] }
  | .addNew e => { s with newEntries := s.newEntries ++ [e] }
  | .fileChecked => s
  | .saveStore => { s with store := s.newEntries }
  | .flushLog => { s with log := [] }

def replay (s : UState) (evs : List UEvent) : UState :=
  evs.foldl applyEvent s

/-- A full run of `FileCache.update` from the given persisted store, write-log
records and scanned files. -/
def runUpdate (store logRecs : List CachedFile) (current_mtime : Int)
    (files : List FsFile) : UState :=
  replay ⟨store, logRecs, []⟩ (updateEvents store logRecs current_mtime files)

/-- The entries hashed during a run: those appended to the write log (each
append happens immediately after the file's digest is computed). -/
def hashedEntries (evs : List UEvent) : List CachedFile :=
  evs.filterMap (fun ev => match ev with | .appendLog e => some e | _ => none)

theorem fileEvents_hit {table : List CachedFile} {f : FsFile} {e : CachedFile}
    (h : lookupPM table f.path f.mtime = some e) (cur : Int) :
    fileEvents table cur f = [.addNew e, .fileChecked] := by
  rw [fileEvents, h]

theorem fileEvents_miss {table : List CachedFile} {f : FsFile}
    (h : lookupPM table f.path f.mtime = none) (cur : Int) :
    fileEvents table cur f =
      (chunkSizes f.size).map UEvent.dataRead
        ++ [.appendLog (missEntry cur f), .addNew (missEntry cur f), .fileChecked] := by
  rw [fileEvents, h]

theorem append_next (table : List CachedFile) (cur : Int) :
    ∀ (files : List FsFile) (i : Nat) (e : CachedFile),
    (updateEventsAux table cur files)[i]? = some (.appendLog e) →
    (updateEventsAux table cur files)[i + 1]? = some (.addNew e) := by
  intro files
  induction files with
  | nil =>
    intro i e h
    rcases i with _ | _ | i <;> simp [updateEventsAux] at h
  | cons f rest ih =>
    intro i e h
    rw [updateEventsAux] at h ⊢
    by_cases hlt : i < (fileEvents table cur f).length
    · rw [List.getElem?_append_left hlt] at h
      cases hlk : lookupPM table f.path f.mtime with
      | some e' =>
        rw [fileEvents_hit hlk] at h
        rcases i with _ | _ | i <;> simp at h
      | none =>
        rw [fileEvents_miss hlk] at h hlt ⊢
        set ds := (chunkSizes f.size).map UEvent.dataRead with hds
        by_cases hi : i < ds.length
        · exfalso
          rw [List.getElem?_append_left hi] at h
          have hmem : UEvent.appendLog e ∈ ds := List.getElem?_mem h
          rw [hds] at hmem
          obtain ⟨n, _, hn⟩ := List.mem_map.mp hmem
          exact UEvent.noConfusion hn
        · push_neg at hi
          rw [List.getElem?_append_right hi] at h
          have hlen : i - ds.length < 3 := by
            simp only [List.length_append, List.length_cons, List.length_nil] at hlt
            omega
          have hcase : i - ds.length = 0 ∨ i - ds.length = 1 ∨ i - ds.length = 2 := by omega
          rcases hcase with hc | hc | hc
          · rw [hc] at h
            simp only [List.getElem?_cons_zero, Option.some.injEq] at h
            have he : missEntry cur f = e := by
              cases h
              rfl
            have hieq : i = ds.length := by omega
            rw [List.getElem?_append_left (by
              simp only [List.length_append, List.length_cons, List.length_nil]
              omega)]
            rw [List.getElem?_append_right (by omega)]
            have : i + 1 - ds.length = 1 := by omega
            rw [this]
            rw [he]
            rfl
          · rw [hc] at h
            simp at h
          · rw [hc] at h
            simp at h
    · push_neg at hlt
      rw [List.getElem?_append_right hlt] at h
      have h2 := ih (i - (fileEvents table cur f).length) e h
      rw [List.getElem?_append_right (by omega)]
      have heq : i + 1 - (fileEvents table cur f).length
          = (i - (fileEvents table cur f).length) + 1 := by omega
      rw [heq]
      exact h2

theorem replay_log_mono :
    ∀ (evs : List UEvent) (s0 : UState), UEvent.flushLog ∉ evs →
    (∀ e ∈ s0.log, e ∈ (replay s0 evs).log)
    ∧ (∀ e ∈ hashedEntries evs, e ∈ (replay s0 evs).log) := by
  intro evs
  induction evs with
  | nil => intro s0 _; exact ⟨fun e he => he, by simp [hashedEntries]⟩
  | cons ev t ih =>
    intro s0 hnf
    simp only [List.mem_cons] at hnf
    push_neg at hnf
    have ihs := ih (applyEvent s0 ev) hnf.2
    have hrep : replay s0 (ev :: t) = replay (applyEvent s0 ev) t := rfl
    cases ev with
    | dataRead n => exact ⟨ihs.1, by simpa [hashedEntries] using ihs.2⟩
    | fileChecked => exact ⟨ihs.1, by simpa [hashedEntries] using ihs.2⟩
    | addNew e => exact ⟨ihs.1, by simpa [hashedEntries] using ihs.2⟩
    | saveStore => exact ⟨ihs.1, by simpa [hashedEntries] using ihs.2⟩
    | flushLog => exact absurd rfl hnf.1
    | appendLog e =>
      constructor
      · intro x hx
        exact ihs.1 x (by simp [applyEvent, hx])
      · intro x hx
        simp only [hashedEntries, List.filterMap_cons] at hx
        simp only [List.mem_cons] at hx
        rcases hx with hx | hx
        · exact ihs.1 x (by simp [applyEvent, hx])
        · exact ihs.2 x hx

theorem replay_new_mono :
    ∀ (evs : List UEvent) (s0 : UState),
    (∀ e ∈ s0.newEntries, e ∈ (replay s0 evs).newEntries)
    ∧ (∀ e, UEvent.addNew e ∈ evs → e ∈ (replay s0 evs).newEntries) := by
  intro evs
  induction evs with
  | nil => intro s0; exact ⟨fun e he => he, by simp⟩
  | cons ev t ih =>
    intro s0
    have ihs := ih (applyEvent s0 ev)
    refine ⟨?_, ?_⟩
    · intro x hx
      refine ihs.1 x ?_
      cases ev <;> simp [applyEvent, hx]
    · intro x hx
      rcases List.mem_cons.mp hx with hx | hx
      · subst hx
        refine ihs.1 x ?_
        simp [applyEvent]
      · exact ihs.2 x hx

theorem updateEventsAux_eq (table : List CachedFile) (cur : Int) :
    ∀ files : List FsFile, ∃ B,
      updateEventsAux table cur files = B ++ [.saveStore, .flushLog]
      ∧ UEvent.flushLog ∉ B
      ∧ (∀ e, UEvent.appendLog e ∈ B → UEvent.addNew e ∈ B) := by
  intro files
  induction files with
  | nil => exact ⟨[], rfl, by simp, by simp⟩
  | cons f rest ih =>
    obtain ⟨B, hB, hnf, himp⟩ := ih
    refine ⟨fileEvents table cur f ++ B, ?_, ?_, ?_⟩
    · rw [updateEventsAux, hB, List.append_assoc]
    · intro hmem
      rcases List.mem_append.mp hmem with hmem | hmem
      · cases hlk : lookupPM table f.path f.mtime with
        | some e' =>
          rw [fileEvents_hit hlk] at hmem
          simp at hmem
        | none =>
          rw [fileEvents_miss hlk] at hmem
          rcases List.mem_append.mp hmem with hmem | hmem
          · obtain ⟨n, _, hn⟩ := List.mem_map.mp hmem
            exact UEvent.noConfusion hn
          · simp at hmem
      · exact hnf hmem
    · intro e hmem
      rcases List.mem_append.mp hmem with hmem | hmem
      · cases hlk : lookupPM table f.path f.mtime with
        | some e' =>
          rw [fileEvents_hit hlk] at hmem
          simp at hmem
        | none =>
          rw [fileEvents_miss hlk] at hmem ⊢
          rcases List.mem_append.mp hmem with hmem | hmem
          · obtain ⟨n, _, hn⟩ := List.mem_map.mp hmem
            exact UEvent.noConfusion hn
          · simp only [List.mem_cons, List.mem_singleton] at hmem
            rcases hmem with hmem | hmem | hmem
            · cases hmem
              exact List.mem_append_left _ (List.mem_append_right _ (by simp))
            · exact UEvent.noConfusion hmem
            · rcases hmem with hmem | hmem
              · exact UEvent.noConfusion hmem
              · exact absurd hmem (List.not_mem_nil _)
      · exact List.mem_append_right _ (himp e hmem)

theorem mem_of_hashedEntries {l : List UEvent} {e : CachedFile}
    (h : e ∈ hashedEntries l) : UEvent.appendLog e ∈ l := by
  rw [hashedEntries] at h
  obtain ⟨a, ha, hfa⟩ := List.mem_filterMap.mp h
  cases a <;> simp at hfa
  rw [hfa] at ha
  exact ha

/-- C2: within every run of `FileCache.update` (the event stream
`updateEvents`), every write-log append is immediately followed by — hence
strictly precedes — the inclusion of that entry in the in-memory `new_entries`
list; the atomic save of the cache store strictly precedes the truncation
(flush) of the write log; and at every step of the run (every prefix of the
event stream), every entry hashed-and-logged so far is recoverable from the
write log or from the cache store — never from neither. -/
theorem c2_update_write_log_ordering (store logRecs : List CachedFile)
    (current_mtime : Int) (files : List FsFile) :
    (∀ i e, (updateEvents store logRecs current_mtime files)[i]?
          = some (.appendLog e) →
        (updateEvents store logRecs current_mtime files)[i + 1]?
          = some (.addNew e))
    ∧ (∃ i j : Nat, i < j
        ∧ (updateEvents store logRecs current_mtime files)[i]?
          = some UEvent.saveStore
        ∧ (updateEvents store logRecs current_mtime files)[j]?
          = some UEvent.flushLog)
    ∧ (∀ n, ∀ e ∈ hashedEntries
          ((updateEvents store logRecs current_mtime files).take n),
        e ∈ (replay ⟨store, logRecs, []⟩
              ((updateEvents store logRecs current_mtime files).take n)).log
        ∨ e ∈ (replay ⟨store, logRecs, []⟩
              ((updateEvents store logRecs current_mtime files).take n)).store) := by
  obtain ⟨B, hB, hnfB, himpB⟩ :=
    updateEventsAux_eq (store ++ logRecs) current_mtime files
  refine ⟨append_next (store ++ logRecs) current_mtime files, ?_, ?_⟩
  · refine ⟨B.length, B.length + 1, by omega, ?_, ?_⟩
    · rw [updateEvents, hB, List.getElem?_append_right (le_refl _)]
      simp
    · rw [updateEvents, hB, List.getElem?_append_right (by omega)]
      have h1 : B.length + 1 - B.length = 1 := by omega
      rw [h1]
      simp
  · intro n e he
    by_cases hn : n ≤ B.length + 1
    · left
      have hflush : UEvent.flushLog
          ∉ (updateEvents store logRecs current_mtime files).take n := by
        intro hmem
        rw [updateEvents, hB, List.take_append_eq_append_take] at hmem
        rcases List.mem_append.mp hmem with hmem | hmem
        · exact hnfB (List.mem_of_mem_take hmem)
        · have hk : n - B.length ≤ 1 := by omega
          rcases Nat.le_one_iff_eq_zero_or_eq_one.mp hk with hk1 | hk1 <;>
            rw [hk1] at hmem <;> simp at hmem
      exact (replay_log_mono _ ⟨store, logRecs, []⟩ hflush).2 e he
    · push_neg at hn
      have hlen : (updateEvents store logRecs current_mtime files).length
          = B.length + 2 := by
        rw [updateEvents, hB]
        simp
      have htake : (updateEvents store logRecs current_mtime files).take n
          = updateEvents store logRecs current_mtime files :=
        List.take_of_length_le (by omega)
      rw [htake] at he ⊢
      right
      have hhB : e ∈ hashedEntries B := by
        rw [updateEvents, hB, hashedEntries, List.filterMap_append] at he
        rcases List.mem_append.mp he with he | he
        · exact he
        · simp at he
      have happ : UEvent.appendLog e ∈ B := mem_of_hashedEntries hhB
      have hadd : UEvent.addNew e ∈ B := himpB e happ
      have hnew : e ∈ (replay ⟨store, logRecs, []⟩ B).newEntries :=
        (replay_new_mono B ⟨store, logRecs, []⟩).2 e hadd
      have hfinal : (replay ⟨store, logRecs, []⟩
            (updateEvents store logRecs current_mtime files)).store
          = (replay ⟨store, logRecs, []⟩ B).newEntries := by
        rw [updateEvents, hB, replay, List.foldl_append]
        rfl
      rw [hfinal]
      exact hnew

/-- The entry `update` keeps for one scanned file: the table entry on a hit,
`missEntry` on a miss. -/
def entryFor (table : List CachedFile) (cur : Int) (f : FsFile) : CachedFile :=
  match lookupPM table f.path f.mtime with
  | some e => e
  | none => missEntry cur f

theorem replay_dataRead (l : List Nat) :
    ∀ s : UState, replay s (l.map UEvent.dataRead) = s := by
  induction l with
  | nil => intro s; rfl
  | cons n t ih => intro s; exact ih s

theorem replay_run (table : List CachedFile) (cur : Int) :
    ∀ (files : List FsFile) (s0 : UState),
      replay s0 (updateEventsAux table cur files)
        = ⟨s0.newEntries ++ files.map (entryFor table cur), [],
           s0.newEntries ++ files.map (entryFor table cur)⟩ := by
  intro files
  induction files with
  | nil =>
    intro s0
    obtain ⟨st, lg, ne⟩ := s0
    simp [updateEventsAux, replay, applyEvent]
  | cons f rest ih =>
    intro s0
    rw [updateEventsAux, replay, List.foldl_append]
    cases hlk : lookupPM table f.path f.mtime with
    | some e =>
      rw [fileEvents_hit hlk]
      have hstep : List.foldl applyEvent s0 [.addNew e, .fileChecked]
          = ⟨s0.store, s0.log, s0.newEntries ++ [e]⟩ := rfl
      rw [hstep]
      have := ih ⟨s0.store, s0.log, s0.newEntries ++ [e]⟩
      rw [replay] at this
      rw [this]
      simp [entryFor, hlk]
    | none =>
      rw [fileEvents_miss hlk]
      rw [List.foldl_append]
      have hds : List.foldl applyEvent s0 ((chunkSizes f.size).map UEvent.dataRead)
          = s0 := replay_dataRead _ s0
      rw [hds]
      have hstep : List.foldl applyEvent s0
          [.appendLog (missEntry cur f), .addNew (missEntry cur f), .fileChecked]
          = ⟨s0.store, s0.log ++ [missEntry cur f],
             s0.newEntries ++ [missEntry cur f]⟩ := rfl
      rw [hstep]
      have := ih ⟨s0.store, s0.log ++ [missEntry cur f],
          s0.newEntries ++ [missEntry cur f]⟩
      rw [replay] at this
      rw [this]
      simp [entryFor, hlk]

/-- Closed form of a full `update` run: the new entry list (one `entryFor` per
scanned file, in scan order) is saved as the store and the write log ends
empty. -/
theorem runUpdate_eq (store logRecs : List CachedFile) (cur : Int)
    (files : List FsFile) :
    runUpdate store logRecs cur files
      = ⟨files.map (entryFor (store ++ logRecs) cur), [],
         files.map (entryFor (store ++ logRecs) cur)⟩ := by
  rw [runUpdate, updateEvents, replay_run]
  simp

theorem lookupPM_some {S : List CachedFile} {p : PyPath} {m : Int} {e : CachedFile}
    (h : lookupPM S p m = some e) : e ∈ S ∧ e.path = p ∧ e.mtime = m := by
  rw [lookupPM] at h
  have hmem : e ∈ S.reverse := List.mem_of_find?_eq_some h
  have hpred := List.find?_some h
  simp only [Bool.and_eq_true, beq_iff_eq] at hpred
  exact ⟨List.mem_reverse.mp hmem, hpred.1, hpred.2⟩

theorem lookupPM_isSome {S : List CachedFile} {p : PyPath} {m : Int} {e : CachedFile}
    (he : e ∈ S) (hp : e.path = p) (hm : e.mtime = m) :
    (lookupPM S p m).isSome := by
  rw [lookupPM, List.find?_isSome]
  exact ⟨e, List.mem_reverse.mpr he, by simp [hp, hm]⟩

theorem entryFor_path (table : List CachedFile) (cur : Int) (f : FsFile) :
    (entryFor table cur f).path = f.path := by
  rw [entryFor]
  cases hlk : lookupPM table f.path f.mtime with
  | none => rfl
  | some e => exact (lookupPM_some hlk).2.1

theorem entryFor_mtime (table : List CachedFile) (cur : Int) (f : FsFile) :
    (entryFor table cur f).mtime = f.mtime ∨ (entryFor table cur f).mtime = 0 := by
  rw [entryFor]
  cases hlk : lookupPM table f.path f.mtime with
  | none =>
    rw [missEntry]
    by_cases hge : f.mtime ≥ cur
    · right
      simp [hge]
    · left
      simp [hge]
  | some e => exact Or.inl (lookupPM_some hlk).2.2

theorem appendLog_of_miss (table : List CachedFile) (cur : Int) :
    ∀ (files : List FsFile) (f : FsFile), f ∈ files →
    lookupPM table f.path f.mtime = none →
    UEvent.appendLog (missEntry cur f) ∈ updateEventsAux table cur files := by
  intro files
  induction files with
  | nil => intro f hf; simp at hf
  | cons g rest ih =>
    intro f hf hmiss
    rw [updateEventsAux]
    rcases List.mem_cons.mp hf with hf | hf
    · subst hf
      refine List.mem_append_left _ ?_
      rw [fileEvents_miss hmiss]
      exact List.mem_append_right _ (by simp)
    · exact List.mem_append_right _ (ih f hf hmiss)

theorem no_hash_of_all_hit (table : List CachedFile) (cur : Int) :
    ∀ files : List FsFile,
    (∀ f ∈ files, (lookupPM table f.path f.mtime).isSome) →
    hashedEntries (updateEventsAux table cur files) = []
    ∧ (∀ n, UEvent.dataRead n ∉ updateEventsAux table cur files) := by
  intro files
  induction files with
  | nil =>
    intro _
    exact ⟨by simp [updateEventsAux, hashedEntries], by simp [updateEventsAux]⟩
  | cons f rest ih =>
    intro hall
    obtain ⟨e, hlk⟩ := Option.isSome_iff_exists.mp (hall f (by simp))
    have ihr := ih (fun g hg => hall g (List.mem_cons_of_mem _ hg))
    rw [updateEventsAux, fileEvents_hit hlk]
    constructor
    · rw [hashedEntries, List.filterMap_append]
      have h1 : hashedEntries [UEvent.addNew e, UEvent.fileChecked] = [] := by
        simp [hashedEntries]
      rw [hashedEntries] at h1 ihr
      rw [h1, ihr.1]
      rfl
    · intro n hmem
      rcases List.mem_append.mp hmem with hmem | hmem
      · simp at hmem
      · exact ihr.2 n hmem

theorem eq_of_nodup_paths {files : List FsFile}
    (hnd : (files.map FsFile.path).Nodup) {f g : FsFile}
    (hf : f ∈ files) (hg : g ∈ files) (hp : f.path = g.path) : f = g := by
  induction files with
  | nil => simp at hf
  | cons r t ih =>
    simp only [List.map_cons, List.nodup_cons] at hnd
    rcases List.mem_cons.mp hf with hf1 | hf1 <;> rcases List.mem_cons.mp hg with hg1 | hg1
    · rw [hf1, hg1]
    · exfalso
      have hmem : g.path ∈ t.map FsFile.path := List.mem_map_of_mem FsFile.path hg1
      rw [hf1] at hp
      rw [← hp] at hmem
      exact hnd.1 hmem
    · exfalso
      have hmem : f.path ∈ t.map FsFile.path := List.mem_map_of_mem FsFile.path hf1
      rw [hg1] at hp
      rw [hp] at hmem
      exact hnd.1 hmem
    · exact ih hnd.2 hf1 hg1

/-- C4 counterexample to the claim as stated: a cached entry with the
sentinel mtime 0 IS reused as a cache hit when the file's observed mtime on
the next scan is itself 0 — the `(path, mtime)` lookup matches the sentinel.
The store keeps the stale hash and nothing is hashed, although the claim says
such an entry is never reused and the file is re-hashed. -/
theorem c4_sentinel_counterexample :
    hashedEntries (updateEvents [⟨⟨true, [['a']]⟩, 0, "stale"⟩] [] 100
        [⟨⟨true, [['a']]⟩, 0, 3, "fresh"⟩]) = []
    ∧ (runUpdate [⟨⟨true, [['a']]⟩, 0, "stale"⟩] [] 100
        [⟨⟨true, [['a']]⟩, 0, 3, "fresh"⟩]).store
      = [⟨⟨true, [['a']]⟩, 0, "stale"⟩] := by
  decide

/-- C4 (amended): during `FileCache.update`, whenever a file misses the cache
and its observed mtime is not strictly less than `current_mtime`, the entry is
stored with mtime 0; and an entry with mtime 0 is never reused as a cache hit
on the next scan — the file is re-hashed — provided the file's observed mtime
on that scan is nonzero (the preceding counterexample shows reuse when the
observed mtime is exactly 0). -/
theorem c4_sentinel_amended (store logRecs S : List CachedFile) (cur cur2 : Int)
    (files files2 : List FsFile) (f g : FsFile)
    (hf : f ∈ files) (hmiss : lookupPM (store ++ logRecs) f.path f.mtime = none)
    (hge : f.mtime ≥ cur)
    (hg : g ∈ files2) (hall : ∀ e ∈ S, e.path = g.path → e.mtime = 0)
    (hgm : g.mtime ≠ 0) :
    CachedFile.mk f.path 0 f.hash ∈ (runUpdate store logRecs cur files).store
    ∧ UEvent.appendLog (missEntry cur2 g) ∈ updateEvents S [] cur2 files2 := by
  constructor
  · rw [runUpdate_eq]
    have hent : entryFor (store ++ logRecs) cur f = CachedFile.mk f.path 0 f.hash := by
      rw [entryFor, hmiss, missEntry, if_pos hge]
    rw [← hent]
    exact List.mem_map_of_mem _ hf
  · have hmiss2 : lookupPM S g.path g.mtime = none := by
      cases hlk : lookupPM S g.path g.mtime with
      | none => rfl
      | some e =>
        obtain ⟨he, hp, hm⟩ := lookupPM_some hlk
        exact absurd (hm ▸ hall e he hp) hgm
    rw [updateEvents]
    have hmiss2' : lookupPM (S ++ []) g.path g.mtime = none := by
      rw [List.append_nil]
      exact hmiss2
    exact appendLog_of_miss (S ++ []) cur2 files2 g hg hmiss2'

/-- Witness for C4 (amended) at concrete inputs: `/a` observed with
mtime 20 ≥ current 10 on the first scan, and `/b` with a stored sentinel entry
and observed mtime 7 on the second. -/
theorem c4_sentinel_amended_witness :
    ((⟨⟨true, [['a']]⟩, 20, 3, "h"⟩ : FsFile) ∈ [(⟨⟨true, [['a']]⟩, 20, 3, "h"⟩ : FsFile)]
    ∧ lookupPM ([] ++ []) (⟨true, [['a']]⟩ : PyPath) 20 = none
    ∧ (20 : Int) ≥ 10
    ∧ (⟨⟨true, [['b']]⟩, 7, 3, "h3"⟩ : FsFile) ∈ [(⟨⟨true, [['b']]⟩, 7, 3, "h3"⟩ : FsFile)]
    ∧ (∀ e ∈ [(⟨⟨true, [['b']]⟩, 0, "h2"⟩ : CachedFile)],
        e.path = (⟨true, [['b']]⟩ : PyPath) → e.mtime = 0)
    ∧ (7 : Int) ≠ 0)
    ∧ (CachedFile.mk ⟨true, [['a']]⟩ 0 "h"
        ∈ (runUpdate [] [] 10 [⟨⟨true, [['a']]⟩, 20, 3, "h"⟩]).store
      ∧ UEvent.appendLog (missEntry 50 ⟨⟨true, [['b']]⟩, 7, 3, "h3"⟩)
        ∈ updateEvents [⟨⟨true, [['b']]⟩, 0, "h2"⟩] [] 50
            [⟨⟨true, [['b']]⟩, 7, 3, "h3"⟩]) :=
  ⟨⟨by decide, by decide, by decide, by decide, by decide, by decide⟩,
   c4_sentinel_amended [] [] [⟨⟨true, [['b']]⟩, 0, "h2"⟩] 10 50
    [⟨⟨true, [['a']]⟩, 20, 3, "h"⟩] [⟨⟨true, [['b']]⟩, 7, 3, "h3"⟩]
    ⟨⟨true, [['a']]⟩, 20, 3, "h"⟩ ⟨⟨true, [['b']]⟩, 7, 3, "h3"⟩
    (by decide) (by decide) (by decide) (by decide) (by decide) (by decide)⟩

/-- C6 counterexample to the claim as stated: with the clock reading 0, a file
observed with mtime 0 is hashed on the first scan and stored with the sentinel
mtime 0 (observed mtime ≥ current_mtime), but the second scan reuses that
entry as a hit — its `(path, mtime)` key matches — so the entry is NOT
re-hashed, contradicting the claim's second conjunct. -/
theorem c6_idempotence_counterexample :
    hashedEntries (updateEvents [] [] 0 [⟨⟨true, [['a']]⟩, 0, 3, "h"⟩])
      = [⟨⟨true, [['a']]⟩, 0, "h"⟩]
    ∧ (runUpdate [] [] 0 [⟨⟨true, [['a']]⟩, 0, 3, "h"⟩]).store
      = [⟨⟨true, [['a']]⟩, 0, "h"⟩]
    ∧ hashedEntries (updateEvents
        (runUpdate [] [] 0 [⟨⟨true, [['a']]⟩, 0, 3, "h"⟩]).store [] 100
        [⟨⟨true, [['a']]⟩, 0, 3, "h"⟩]) = [] := by
  decide

/-- C6 (amended): after a completed `update` whose resulting store carries no
mtime-0 sentinel, a second `update` over the unchanged file list computes zero
new hashes and never invokes the data-read progress sink; and a file whose
first scan missed the cache with observed mtime ≥ current_mtime (hence was
stored with the sentinel) is re-hashed on the second scan provided its
observed mtime is nonzero (the preceding counterexample shows reuse when it is
exactly 0). -/
theorem c6_idempotence_amended (store logRecs : List CachedFile) (cur1 cur2 : Int)
    (files : List FsFile) (f : FsFile) (hf : f ∈ files)
    (hnodup : (files.map FsFile.path).Nodup) :
    ((∀ e ∈ (runUpdate store logRecs cur1 files).store, e.mtime ≠ 0) →
      hashedEntries (updateEvents (runUpdate store logRecs cur1 files).store [] cur2
          files) = []
      ∧ (∀ n, UEvent.dataRead n ∉ updateEvents
          (runUpdate store logRecs cur1 files).store [] cur2 files))
    ∧ (lookupPM (store ++ logRecs) f.path f.mtime = none → f.mtime ≥ cur1 →
        f.mtime ≠ 0 →
      UEvent.appendLog (missEntry cur2 f)
        ∈ updateEvents (runUpdate store logRecs cur1 files).store [] cur2 files) := by
  have hstore : (runUpdate store logRecs cur1 files).store
      = files.map (entryFor (store ++ logRecs) cur1) := by
    rw [runUpdate_eq]
  constructor
  · intro hnosent
    rw [updateEvents, List.append_nil]
    refine no_hash_of_all_hit _ cur2 files ?_
    intro g hg
    have hent : entryFor (store ++ logRecs) cur1 g
        ∈ (runUpdate store logRecs cur1 files).store := by
      rw [hstore]
      exact List.mem_map_of_mem _ hg
    have hmt : (entryFor (store ++ logRecs) cur1 g).mtime = g.mtime := by
      rcases entryFor_mtime (store ++ logRecs) cur1 g with h | h
      · exact h
      · exact absurd h (hnosent _ hent)
    exact lookupPM_isSome hent (entryFor_path _ _ _) hmt
  · intro hmiss1 hge1 hfm
    rw [updateEvents, List.append_nil]
    refine appendLog_of_miss _ cur2 files f hf ?_
    cases hlk : lookupPM (runUpdate store logRecs cur1 files).store f.path f.mtime with
    | none => rfl
    | some e =>
      exfalso
      obtain ⟨he, hp, hm⟩ := lookupPM_some hlk
      rw [hstore] at he
      obtain ⟨g, hg, hge⟩ := List.mem_map.mp he
      have hgp : g.path = f.path := by
        rw [← entryFor_path (store ++ logRecs) cur1 g, hge, hp]
      have hgf : g = f := eq_of_nodup_paths hnodup hg hf hgp
      subst hgf
      have hent : entryFor (store ++ logRecs) cur1 g = missEntry cur1 g := by
        rw [entryFor, hmiss1]
      rw [hent, missEntry, if_pos hge1] at hge
      rw [← hge] at hm
      simp at hm
      exact hfm hm.symm

/-- Witness for C6 (amended) at a concrete input: one file observed with
mtime 20 under a first-scan clock reading of 10. -/
theorem c6_idempotence_amended_witness :
    ((⟨⟨true, [['a']]⟩, 20, 3, "h"⟩ : FsFile)
        ∈ [(⟨⟨true, [['a']]⟩, 20, 3, "h"⟩ : FsFile)]
    ∧ (([(⟨⟨true, [['a']]⟩, 20, 3, "h"⟩ : FsFile)]).map FsFile.path).Nodup)
    ∧ (((∀ e ∈ (runUpdate [] [] 10 [⟨⟨true, [['a']]⟩, 20, 3, "h"⟩]).store,
          e.mtime ≠ 0) →
        hashedEntries (updateEvents
            (runUpdate [] [] 10 [⟨⟨true, [['a']]⟩, 20, 3, "h"⟩]).store [] 50
            [⟨⟨true, [['a']]⟩, 20, 3, "h"⟩]) = []
        ∧ (∀ n, UEvent.dataRead n ∉ updateEvents
            (runUpdate [] [] 10 [⟨⟨true, [['a']]⟩, 20, 3, "h"⟩]).store [] 50
            [⟨⟨true, [['a']]⟩, 20, 3, "h"⟩]))
      ∧ (lookupPM ([] ++ []) (⟨true, [['a']]⟩ : PyPath) 20 = none → (20 : Int) ≥ 10 →
          (20 : Int) ≠ 0 →
        UEvent.appendLog (missEntry 50 ⟨⟨true, [['a']]⟩, 20, 3, "h"⟩)
          ∈ updateEvents (runUpdate [] [] 10 [⟨⟨true, [['a']]⟩, 20, 3, "h"⟩]).store
              [] 50 [⟨⟨true, [['a']]⟩, 20, 3, "h"⟩])) :=
  ⟨⟨by decide, by decide⟩,
   c6_idempotence_amended [] [] 10 50 [⟨⟨true, [['a']]⟩, 20, 3, "h"⟩]
    ⟨⟨true, [['a']]⟩, 20, 3, "h"⟩ (by decide) (by decide)⟩

/-- Truncation to a 32-bit word. -/
def w32 (x : Nat) : Nat :=
  x % (2 ^ 32)

/-- 32-bit rotate right. -/
def rotr (n x : Nat) : Nat :=
  w32 ((x >>> n) ||| (x <<< (32 - n)))

def bsig0 (x : Nat) : Nat := rotr 2 x ^^^ rotr 13 x ^^^ rotr 22 x
def bsig1 (x : Nat) : Nat := rotr 6 x ^^^ rotr 11 x ^^^ rotr 25 x
def ssig0 (x : Nat) : Nat := rotr 7 x ^^^ rotr 18 x ^^^ (x >>> 3)
def ssig1 (x : Nat) : Nat := rotr 17 x ^^^ rotr 19 x ^^^ (x >>> 10)

/-- SHA-256 round constants. -/
def sha256K : List Nat :=
  [1116352408, 1899447441, 3049323471, 3921009573, 961987163,
   1508970993, 2453635748, 2870763221, 3624381080, 310598401,
   607225278, 1426881987, 1925078388, 2162078206, 2614888103,
   3248222580, 3835390401, 4022224774, 264347078, 604807628,
   770255983, 1249150122, 1555081692, 1996064986, 2554220882,
   2821834349, 2952996808, 3210313671, 3336571891, 3584528711,
   113926993, 338241895, 666307205, 773529912, 1294757372,
   1396182291, 1695183700, 1986661051, 2177026350, 2456956037,
   2730485921, 2820302411, 3259730800, 3345764771, 3516065817,
   3600352804, 4094571909, 275423344, 430227734, 506948616,
   659060556, 883997877, 958139571, 1322822218, 1537002063,
   1747873779, 1955562222, 2024104815, 2227730452, 2361852424,
   2428436474, 2756734187, 3204031479, 3329325298]

/-- SHA-256 initial hash state. -/
def sha256H0 : List Nat :=
  [1779033703, 3144134277, 1013904242, 2773480762, 1359893119,
   2600822924, 528734635, 1541459225]

/-- Big-endian byte serialization of a number into the given byte count. -/
def toBytesBE : Nat → Nat → List Nat
  | 0, _ => []
  | k + 1, n => toBytesBE k (n >>> 8) ++ [n % 256]

/-- SHA-256 message padding: a 0x80 byte, zeros to 56 mod 64, and the bit
length as an 8-byte big-endian number. -/
def padMessage (msg : List Nat) : List Nat :=
  msg ++ [0x80] ++ List.replicate ((119 - msg.length % 64) % 64) 0
    ++ toBytesBE 8 (8 * msg.length)

/-- Split a padded message into 64-byte blocks. -/
def toBlocksAux : Nat → List Nat → List (List Nat)
  | 0, _ => []
  | _, [] => []
  | fuel + 1, l => l.take 64 :: toBlocksAux fuel (l.drop 64)

def toBlocks (l : List Nat) : List (List Nat) :=
  toBlocksAux l.length l

/-- Big-endian 32-bit words of a block. -/
def bytesToWords : List Nat → List Nat
  | b0 :: b1 :: b2 :: b3 :: rest =>
    ((((b0 <<< 8) ||| b1) <<< 8 ||| b2) <<< 8 ||| b3) :: bytesToWords rest
  | _ => []

/-- Extend the 16 block words to the 64-entry message schedule. -/
def extendW : Nat → List Nat → List Nat
  | 0, w => w
  | k + 1, w =>
    let i := w.length
    extendW k (w ++ [w32 (w.getD (i - 16) 0 + ssig0 (w.getD (i - 15) 0)
      + w.getD (i - 7) 0 + ssig1 (w.getD (i - 2) 0))])

/-- One SHA-256 compression round. -/
def compressRound (st : List Nat) (kw : Nat × Nat) : List Nat :=
  match st with
  | [a, b, c, d, e, f, g, h] =>
    let ch := (e &&& f) ^^^ ((e ^^^ 0xffffffff) &&& g)
    let maj := (a &&& b) ^^^ (a &&& c) ^^^ (b &&& c)
    let t1 := w32 (h + bsig1 e + ch + kw.1 + kw.2)
    let t2 := w32 (bsig0 a + maj)
    [w32 (t1 + t2), a, b, c, w32 (d + t1), e, f, g]
  | st => st

/-- Process one 64-byte block. -/
def processBlock (h : List Nat) (block : List Nat) : List Nat :=
  let st := (sha256K.zip (extendW 48 (bytesToWords block))).foldl compressRound h
  (h.zip st).map (fun p => w32 (p.1 + p.2))

/-- SHA-256 of a byte string, as its 32-byte digest. -/
def sha256 (msg : List Nat) : List Nat :=
  (((toBlocks (padMessage msg)).foldl processBlock sha256H0).map
    (fun wd => [(wd >>> 24) % 256, (wd >>> 16) % 256, (wd >>> 8) % 256, wd % 256])).flatten

def hexDigit (n : Nat) : Nat :=
  [48, 49, 50, 51, 52, 53, 54, 55, 56, 57, 97, 98, 99, 100, 101, 102].getD n 48

/-- The two lowercase hex characters of one byte (`bytes.hex()`). -/
def hexByte (b : Nat) : List Nat :=
  [hexDigit ((b >>> 4) % 16), hexDigit (b % 16)]

/-- `bytes_digest` from `filemaster/util.py`: the string
`'sha256:' + sha256(data).hex()`, as its code-point list (all ASCII). -/
def bytes_digest (data : List Nat) : List Nat :=
  [115, 104, 97, 50, 53, 54, 58] ++ ((sha256 data).map hexByte).flatten

/-- FIPS 180-4 test vector: the model of `hashlib.sha256` is the real hash. -/
example : sha256 [97, 98, 99] = [0xba, 0x78, 0x16, 0xbf, 0x8f, 0x01, 0xcf, 0xea,
    0x41, 0x41, 0x40, 0xde, 0x5d, 0xae, 0x22, 0x23, 0xb0, 0x03, 0x61, 0xa3,
    0x96, 0x17, 0x7a, 0x9c, 0xb4, 0x10, 0xff, 0x61, 0xf2, 0x00, 0x15, 0xad] := by
  decide

/-- Strict UTF-8 decoding (`bytes.decode()`), one byte at a time.  The state
is `none` when a leading byte is expected, or `some (cp, need, lo, hi)` inside
a multi-byte sequence: the code point accumulated so far, the number of
continuation bytes still needed, and the admissible range of the next byte
(the narrowed first-continuation ranges after `E0`, `ED`, `F0` and `F4` reject
overlong forms, surrogates and values beyond U+10FFFF, exactly the inputs on
which Python raises `UnicodeDecodeError`). -/
def utf8Aux : Option (Nat × Nat × Nat × Nat) → List Nat → Option (List Nat)
  | none, [] => some []
  | some _, [] => none
  | none, b :: rest =>
    if b < 128 then (utf8Aux none rest).map (fun s => b :: s)
    else if 194 ≤ b ∧ b ≤ 223 then utf8Aux (some (b - 192, 1, 128, 191)) rest
    else if 224 ≤ b ∧ b ≤ 239 then
      utf8Aux (some (b - 224, 2, if b = 224 then 160 else 128,
        if b = 237 then 159 else 191)) rest
    else if 240 ≤ b ∧ b ≤ 244 then
      utf8Aux (some (b - 240, 3, if b = 240 then 144 else 128,
        if b = 244 then 143 else 191)) rest
    else none
  | some (cp, need, lo, hi), c :: rest =>
    if lo ≤ c ∧ c ≤ hi then
      if need ≤ 1 then (utf8Aux none rest).map (fun s => (cp * 64 + (c - 128)) :: s)
      else utf8Aux (some (cp * 64 + (c - 128), need - 1, 128, 191)) rest
    else none

/-- `bytes.decode()`: the code points of the decoded string, or `none` where
Python raises `UnicodeDecodeError`. -/
def utf8Decode (s : List Nat) : Option (List Nat) :=
  utf8Aux none s

theorem utf8Decode_ascii : ∀ {s : List Nat}, (∀ c ∈ s, c < 128) →
    utf8Decode s = some s := by
  intro s
  induction s with
  | nil => intro _; rfl
  | cons b t ih =>
    intro h
    have hb : b < 128 := h b (by simp)
    rw [utf8Decode, utf8Aux, if_pos hb]
    have := ih (fun c hc => h c (List.mem_cons_of_mem _ hc))
    rw [utf8Decode] at this
    rw [this]
    rfl

theorem utf8Aux_some_head : ∀ (rest : List Nat) (cp need lo hi : Nat) (s : List Nat),
    utf8Aux (some (cp, need, lo, hi)) rest = some s → 128 ≤ lo →
    ∃ h t, s = h :: t ∧ (cp * 64 + (lo - 128)) * 64 ^ (need - 1) ≤ h := by
  intro rest
  induction rest with
  | nil =>
    intro cp need lo hi s hd _
    rw [utf8Aux] at hd
    exact Option.noConfusion hd
  | cons c rest' ih =>
    intro cp need lo hi s hd hlo
    rw [utf8Aux] at hd
    by_cases hc : lo ≤ c ∧ c ≤ hi
    · rw [if_pos hc] at hd
      by_cases hn : need ≤ 1
      · rw [if_pos hn] at hd
        obtain ⟨s', _, heq⟩ := Option.map_eq_some'.mp hd
        refine ⟨cp * 64 + (c - 128), s', heq.symm, ?_⟩
        have h1 : need - 1 = 0 := by omega
        rw [h1, pow_zero, mul_one]
        omega
      · rw [if_neg hn] at hd
        obtain ⟨h, t, heq, hge⟩ := ih (cp * 64 + (c - 128)) (need - 1) 128 191 s hd
          (by omega)
        refine ⟨h, t, heq, ?_⟩
        refine le_trans ?_ hge
        have h64 : (128 : Nat) - 128 = 0 := by omega
        rw [h64, add_zero]
        have hstep : need - 1 = (need - 1 - 1) + 1 := by omega
        calc (cp * 64 + (lo - 128)) * 64 ^ (need - 1)
            = (cp * 64 + (lo - 128)) * (64 ^ (need - 1 - 1) * 64) := by
              rw [← pow_succ, ← hstep]
          _ ≤ ((cp * 64 + (c - 128)) * 64) * 64 ^ (need - 1 - 1) := by
              have hle : cp * 64 + (lo - 128) ≤ cp * 64 + (c - 128) := by omega
              calc (cp * 64 + (lo - 128)) * (64 ^ (need - 1 - 1) * 64)
                  ≤ (cp * 64 + (c - 128)) * (64 ^ (need - 1 - 1) * 64) :=
                    Nat.mul_le_mul_right _ hle
                _ = ((cp * 64 + (c - 128)) * 64) * 64 ^ (need - 1 - 1) := by ring
    · rw [if_neg hc] at hd
      exact Option.noConfusion hd

theorem utf8Decode_ascii_inj : ∀ (d : List Nat) {s : List Nat},
    utf8Decode d = some s → (∀ c ∈ s, c < 128) → d = s := by
  intro d
  induction d with
  | nil =>
    intro s hd _
    rw [utf8Decode, utf8Aux] at hd
    cases hd
    rfl
  | cons b rest ih =>
    intro s hd hs
    rw [utf8Decode, utf8Aux] at hd
    by_cases hb : b < 128
    · rw [if_pos hb] at hd
      obtain ⟨s', hs', heq⟩ := Option.map_eq_some'.mp hd
      rw [← heq] at hs ⊢
      have hrec : utf8Decode rest = some s' := hs'
      have := ih hrec (fun c hc => hs c (List.mem_cons_of_mem _ hc))
      rw [this]
    · exfalso
      rw [if_neg hb] at hd
      by_cases h2 : 194 ≤ b ∧ b ≤ 223
      · rw [if_pos h2] at hd
        obtain ⟨h, t, heq, hge⟩ := utf8Aux_some_head rest _ _ _ _ s hd (by omega)
        have hmem : h ∈ s := by rw [heq]; simp
        have hlt := hs h hmem
        rw [pow_zero, mul_one] at hge
        omega
      · rw [if_neg h2] at hd
        by_cases h3 : 224 ≤ b ∧ b ≤ 239
        · rw [if_pos h3] at hd
          obtain ⟨h, t, heq, hge⟩ := utf8Aux_some_head rest _ _ _ _ s hd
            (by by_cases h224 : b = 224 <;> simp [h224])
          have hmem : h ∈ s := by rw [heq]; simp
          have hlt := hs h hmem
          have hp : (64 : Nat) ^ (2 - 1) = 64 := by norm_num
          rw [hp] at hge
          by_cases h224 : b = 224
          · rw [if_pos h224] at hge
            omega
          · rw [if_neg h224] at hge
            omega
        · rw [if_neg h3] at hd
          by_cases h4 : 240 ≤ b ∧ b ≤ 244
          · rw [if_pos h4] at hd
            obtain ⟨h, t, heq, hge⟩ := utf8Aux_some_head rest _ _ _ _ s hd
              (by by_cases h240 : b = 240 <;> simp [h240])
            have hmem : h ∈ s := by rw [heq]; simp
            have hlt := hs h hmem
            have hp : (64 : Nat) ^ (3 - 1) = 4096 := by norm_num
            rw [hp] at hge
            by_cases h240 : b = 240
            · rw [if_pos h240] at hge
              omega
            · rw [if_neg h240] at hge
              omega
          · rw [if_neg h4] at hd
            exact Option.noConfusion hd

theorem hexDigit_props (n : Nat) :
    hexDigit n < 128 ∧ hexDigit n ≠ 32 ∧ hexDigit n ≠ 10 := by
  rw [hexDigit]
  by_cases h : n < 16
  · interval_cases n <;> decide
  · rw [List.getD_eq_default]
    · decide
    · simp only [List.length_cons, List.length_nil]
      omega

theorem bytes_digest_props (data : List Nat) :
    ∀ c ∈ bytes_digest data, c < 128 ∧ c ≠ 32 ∧ c ≠ 10 := by
  intro c hc
  rw [bytes_digest] at hc
  rcases List.mem_append.mp hc with hc | hc
  · fin_cases hc <;> decide
  · obtain ⟨pair, hpair, hcp⟩ := List.mem_flatten.mp hc
    obtain ⟨byte, _, hbyte⟩ := List.mem_map.mp hpair
    rw [← hbyte, hexByte] at hcp
    rcases List.mem_cons.mp hcp with hcp | hcp
    · rw [hcp]
      exact hexDigit_props _
    · rcases List.mem_cons.mp hcp with hcp | hcp
      · rw [hcp]
        exact hexDigit_props _
      · exact absurd hcp (List.not_mem_nil _)

theorem utf8Decode_bytes_digest (data : List Nat) :
    utf8Decode (bytes_digest data) = some (bytes_digest data) :=
  utf8Decode_ascii (fun c hc => (bytes_digest_props data c hc).1)

/-- `for line in file`: split a byte string into lines, each including its
trailing newline; a final chunk without a newline is still yielded. -/
def splitLinesAux (acc : List Nat) : List Nat → List (List Nat)
  | [] => if acc = [] then [] else [acc.reverse]
  | b :: t =>
    if b = 10 then (acc.reverse ++ [10]) :: splitLinesAux [] t
    else splitLinesAux (b :: acc) t

def splitLines (content : List Nat) : List (List Nat) :=
  splitLinesAux [] content

/-- `line[:-1]`: drop the line's last byte (its newline — or, for an
unterminated final line, its last data byte). -/
def pyDropLast (l : List Nat) : List Nat :=
  l.dropLast

/-- `line.split(b' ', 1)` when it produces two parts: the bytes before the
first space and everything after it; `none` when the line has no space. -/
def splitFirstSpace : List Nat → Option (List Nat × List Nat)
  | [] => none
  | b :: t =>
    if b = 32 then some ([], t)
    else (splitFirstSpace t).map (fun p => (b :: p.1, p.2))

/-- Outcome of `_decode_record` on one line: a decoded record, an invalid
record (`None` in Python — reading stops and the file is truncated), or a
raised exception. -/
inductive LineResult (α : Type) where
  | valid (v : α)
  | invalid
  | err
deriving DecidableEq, Repr

/-- `_decode_record` from `filemaster/writelog.py` (the `src/src` tree): drop
the trailing byte, split on the first space (no space: invalid), decode the
digest field as UTF-8 (`digest.decode()` — not valid UTF-8: raises), compare
with `bytes_digest(data)` (mismatch: invalid), then decode the payload
(`dec` models `encode.decode(json.loads(data.decode()))`; `none` stands for
any exception it raises).  Python evaluates `bytes_digest(data)` before
`digest.decode()`; both are effect-free, so the order does not change the
outcome. -/
def decodeRecord {α : Type} (dec : List Nat → Option α) (line : List Nat) :
    LineResult α :=
  match splitFirstSpace (pyDropLast line) with
  | none => .invalid
  | some (digest, data) =>
    match utf8Decode digest with
    | none => .err
    | some s =>
      if bytes_digest data ≠ s then .invalid
      else
        match dec data with
        | none => .err
        | some v => .valid v

/-- The loop of `_iter_existing_records`: read records line by line, tracking
`valid_until = file.tell()`; stop at the first invalid record and truncate
there (the returned offset); propagate a raised exception (no truncation
happens in that case — the exception escapes before `file.truncate` runs). -/
def readLogAux {α : Type} (dec : List Nat → Option α) :
    List (List Nat) → Nat → List α → Except Unit (List α × Nat)
  | [], offset, recs => .ok (recs, offset)
  | line :: rest, offset, recs =>
    match decodeRecord dec line with
    | .err => .error ()
    | .invalid => .ok (recs, offset)
    | .valid v => readLogAux dec rest (offset + line.length) (recs ++ [v])

/-- Opening the write log (`_iter_existing_records` forced by `list(...)` in
`with_write_log`): the decoded records of the valid leading run of lines and
the byte offset the file is truncated to, or an exception. -/
def readLog {α : Type} (dec : List Nat → Option α) (content : List Nat) :
    Except Unit (List α × Nat) :=
  readLogAux dec (splitLines content) 0 []

/-- One line written by `WriteLog.append`:
`bytes_digest(data) + b' ' + data + b'\x0a'` for the serialized record
(`ser` models `json.dumps(self._encode.encode(record)).encode()`). -/
def appendLine {α : Type} (ser : α → List Nat) (r : α) : List Nat :=
  bytes_digest (ser r) ++ 32 :: (ser r ++ [10])

/-- The log file produced by appending a sequence of records to an empty
write log. -/
def logContent {α : Type} (ser : α → List Nat) (rs : List α) : List Nat :=
  (rs.map (appendLine ser)).flatten

theorem splitLinesAux_line {l : List Nat} (h : (10 : Nat) ∉ l) (rest : List Nat) :
    ∀ acc, splitLinesAux acc (l ++ 10 :: rest)
      = (acc.reverse ++ l ++ [10]) :: splitLinesAux [] rest := by
  induction l with
  | nil =>
    intro acc
    rw [List.nil_append, splitLinesAux, if_pos rfl]
    simp
  | cons b t ih =>
    intro acc
    simp only [List.mem_cons] at h
    push_neg at h
    rw [List.cons_append, splitLinesAux, if_neg (fun hb => h.1 hb.symm), ih h.2]
    simp

theorem splitFirstSpace_append {d : List Nat} (h : (32 : Nat) ∉ d) (rest : List Nat) :
    splitFirstSpace (d ++ 32 :: rest) = some (d, rest) := by
  induction d with
  | nil =>
    rw [List.nil_append, splitFirstSpace, if_pos rfl]
  | cons b t ih =>
    simp only [List.mem_cons] at h
    push_neg at h
    rw [List.cons_append, splitFirstSpace, if_neg (fun hb => h.1 hb.symm), ih h.2]
    rfl

theorem appendLine_eq {α : Type} (ser : α → List Nat) (r : α) :
    appendLine ser r = (bytes_digest (ser r) ++ 32 :: ser r) ++ [10] := by
  rw [appendLine]
  simp

theorem decodeRecord_appendLine {α : Type} {ser : α → List Nat}
    {dec : List Nat → Option α} (r : α)
    (hrt : dec (ser r) = some r) :
    decodeRecord dec (appendLine ser r) = .valid r := by
  rw [decodeRecord, appendLine_eq, pyDropLast, List.dropLast_concat]
  rw [splitFirstSpace_append (fun hc => (bytes_digest_props (ser r) 32 hc).2.1 rfl)]
  simp [utf8Decode_bytes_digest, hrt]

theorem splitLines_logContent {α : Type} {ser : α → List Nat}
    (hnl : ∀ r, (10 : Nat) ∉ ser r) :
    ∀ rs : List α, splitLines (logContent ser rs) = rs.map (appendLine ser) := by
  intro rs
  induction rs with
  | nil => rfl
  | cons r rest ih =>
    have hcontent : logContent ser (r :: rest)
        = (bytes_digest (ser r) ++ 32 :: ser r) ++ 10 :: logContent ser rest := by
      rw [logContent, List.map_cons, List.flatten_cons, appendLine_eq]
      simp [logContent]
    have hno10 : (10 : Nat) ∉ bytes_digest (ser r) ++ 32 :: ser r := by
      intro hmem
      rcases List.mem_append.mp hmem with hmem | hmem
      · exact (bytes_digest_props (ser r) 10 hmem).2.2 rfl
      · rcases List.mem_cons.mp hmem with hmem | hmem
        · exact absurd hmem.symm (by decide)
        · exact hnl r hmem
    rw [splitLines, hcontent, splitLinesAux_line hno10]
    rw [List.reverse_nil, List.nil_append, ← appendLine_eq, List.map_cons]
    have : splitLinesAux [] (logContent ser rest) = splitLines (logContent ser rest) := rfl
    rw [this, ih]

theorem readLogAux_all_valid {α : Type} {ser : α → List Nat}
    {dec : List Nat → Option α} (hrt : ∀ r, dec (ser r) = some r) :
    ∀ (rs : List α) (offset : Nat) (recs : List α),
    readLogAux dec (rs.map (appendLine ser)) offset recs
      = .ok (recs ++ rs, offset + ((rs.map (appendLine ser)).flatten).length) := by
  intro rs
  induction rs with
  | nil =>
    intro offset recs
    simp [readLogAux]
  | cons r rest ih =>
    intro offset recs
    rw [List.map_cons, readLogAux, decodeRecord_appendLine r (hrt r)]
    dsimp only
    rw [ih (offset + (appendLine ser r).length) (recs ++ [r])]
    rw [List.flatten_cons]
    simp only [List.length_append, List.append_assoc, List.singleton_append]
    rw [Nat.add_assoc]

/-- C7: each `WriteLog.append` writes exactly one record line of the form
`<digest> SP <payload> LF`, where the digest is `bytes_digest(payload)` — the
SHA-256 of the payload in `"sha256:<hex>"` form (`appendLine`, with `sha256`
validated against the FIPS test vector above) — and re-opening the log written
by any finite sequence of appends to an initially empty log returns exactly
that sequence of records, decoded, with the full byte length as the verified
offset.  `ser`/`dec` model the JSON record codec; the hypotheses state that
serialized records contain no raw newline (true of `json.dumps` output) and
that the codec round-trips. -/
theorem c7_writelog_roundtrip {α : Type} (ser : α → List Nat)
    (dec : List Nat → Option α)
    (hnl : ∀ r, (10 : Nat) ∉ ser r) (hrt : ∀ r, dec (ser r) = some r)
    (rs : List α) :
    readLog dec (logContent ser rs) = .ok (rs, (logContent ser rs).length) := by
  rw [readLog, splitLines_logContent hnl, readLogAux_all_valid hrt]
  rw [Nat.zero_add, List.nil_append]
  rfl

/-- A concrete record codec for exercising the write-log round trip: every
record serializes to the single byte `j` (0x6a). -/
def unitSer : Unit → List Nat := fun _ => [106]

def unitDec : List Nat → Option Unit :=
  fun l => if l = [106] then some () else none

theorem c7_writelog_roundtrip_witness :
    readLog unitDec (logContent unitSer [(), ()])
      = .ok ([(), ()], (logContent unitSer [(), ()]).length) :=
  c7_writelog_roundtrip unitSer unitDec (fun r => by cases r; decide)
    (fun r => by cases r; rfl) [(), ()]

/-- Spec-side notion of a valid write-log line, written from the spec's words
(not from the code): after dropping the trailing newline, the line splits on
the first space into a digest field and a payload, and the digest field equals
`bytes_digest(payload)` byte for byte. -/
def specLineValid (line : List Nat) : Option (List Nat) :=
  match splitFirstSpace (pyDropLast line) with
  | none => none
  | some (d, data) => if d = bytes_digest data then some data else none

/-- Spec-side reading, written from the spec's words: keep decoding lines
while they are valid, stop at the first invalid one, and return the decoded
valid prefix together with the byte offset just after the last valid record.
(The spec does not address a payload whose decode fails; this definition stops
there, and the comparison theorem's hypothesis excludes that case anyway.) -/
def specPfx {α : Type} (dec : List Nat → Option α) :
    List (List Nat) → List α × Nat
  | [] => ([], 0)
  | line :: rest =>
    match specLineValid line with
    | none => ([], 0)
    | some data =>
      match dec data with
      | none => ([], 0)
      | some v =>
        (v :: (specPfx dec rest).1, line.length + (specPfx dec rest).2)

theorem decodeRecord_of_specValid {α : Type} (dec : List Nat → Option α)
    {line data : List Nat} (h : specLineValid line = some data) :
    decodeRecord dec line
      = match dec data with
        | none => LineResult.err
        | some v => LineResult.valid v := by
  rw [specLineValid] at h
  rw [decodeRecord]
  cases hsp : splitFirstSpace (pyDropLast line) with
  | none =>
    rw [hsp] at h
    exact absurd h (by simp)
  | some p =>
    obtain ⟨d, pdata⟩ := p
    rw [hsp] at h
    dsimp only at h
    by_cases hd : d = bytes_digest pdata
    · rw [if_pos hd] at h
      obtain rfl : pdata = data := Option.some.inj h
      dsimp only
      rw [hd, utf8Decode_bytes_digest]
      dsimp only
      rw [if_neg (by simp)]
    · rw [if_neg hd] at h
      exact absurd h (by simp)

theorem decodeRecord_of_specInvalid {α : Type} (dec : List Nat → Option α)
    {line : List Nat} (h : specLineValid line = none) :
    decodeRecord dec line = LineResult.invalid
      ∨ decodeRecord dec line = LineResult.err := by
  rw [specLineValid] at h
  rw [decodeRecord]
  cases hsp : splitFirstSpace (pyDropLast line) with
  | none =>
    exact Or.inl rfl
  | some p =>
    obtain ⟨d, data⟩ := p
    rw [hsp] at h
    dsimp only at h ⊢
    by_cases hd : d = bytes_digest data
    · rw [if_pos hd] at h
      exact absurd h (by simp)
    · cases hu : utf8Decode d with
      | none =>
        exact Or.inr rfl
      | some s =>
        dsimp only
        have hs : bytes_digest data ≠ s := by
          intro heq
          exact hd ((utf8Decode_ascii_inj d hu
            (heq ▸ fun c hc => (bytes_digest_props data c hc).1)).trans heq.symm)
        rw [if_pos hs]
        exact Or.inl rfl

theorem readLogAux_spec {α : Type} (dec : List Nat → Option α) :
    ∀ (lines : List (List Nat)),
    (∀ line ∈ lines, decodeRecord dec line ≠ LineResult.err) →
    ∀ (offset : Nat) (recs : List α),
    readLogAux dec lines offset recs
      = .ok (recs ++ (specPfx dec lines).1, offset + (specPfx dec lines).2) := by
  intro lines
  induction lines with
  | nil =>
    intro _ offset recs
    simp [readLogAux, specPfx]
  | cons line rest ih =>
    intro hne offset recs
    have hline := hne line (List.mem_cons_self line rest)
    have hrest : ∀ l ∈ rest, decodeRecord dec l ≠ LineResult.err :=
      fun l hl => hne l (List.mem_cons_of_mem line hl)
    rw [readLogAux]
    cases hv : specLineValid line with
    | some data =>
      have hd := decodeRecord_of_specValid dec hv
      cases hdec : dec data with
      | none =>
        rw [hdec] at hd
        exact absurd hd hline
      | some v =>
        rw [hdec] at hd
        rw [hd]
        dsimp only
        rw [ih hrest (offset + line.length) (recs ++ [v])]
        have hsp : specPfx dec (line :: rest)
            = (v :: (specPfx dec rest).1,
               line.length + (specPfx dec rest).2) := by
          rw [specPfx, hv]
          dsimp only
          rw [hdec]
        rw [hsp]
        simp [Nat.add_assoc]
    | none =>
      rcases decodeRecord_of_specInvalid dec hv with hd | hd
      · rw [hd]
        have hsp : specPfx dec (line :: rest) = ([], 0) := by
          rw [specPfx, hv]
        rw [hsp]
        simp
      · exact absurd hd hline

theorem splitLinesAux_flatten :
    ∀ (t acc : List Nat), (splitLinesAux acc t).flatten = acc.reverse ++ t := by
  intro t
  induction t with
  | nil =>
    intro acc
    by_cases h : acc = []
    · rw [splitLinesAux, if_pos h, h]
      rfl
    · rw [splitLinesAux, if_neg h]
      simp
  | cons b t ih =>
    intro acc
    rw [splitLinesAux]
    by_cases h : b = 10
    · rw [if_pos h, List.flatten_cons, ih]
      simp [h]
    · rw [if_neg h, ih]
      simp

theorem splitLines_flatten (content : List Nat) :
    (splitLines content).flatten = content := by
  rw [splitLines, splitLinesAux_flatten]
  rfl

theorem specPfx_take_flatten {α : Type} (dec : List Nat → Option α) :
    ∀ lines : List (List Nat),
    lines.flatten.take (specPfx dec lines).2
      = (lines.take (specPfx dec lines).1.length).flatten := by
  intro lines
  induction lines with
  | nil => rfl
  | cons line rest ih =>
    cases hv : specLineValid line with
    | none =>
      have hsp : specPfx dec (line :: rest) = ([], 0) := by
        rw [specPfx, hv]
      rw [hsp]
      rfl
    | some data =>
      cases hdec : dec data with
      | none =>
        have hsp : specPfx dec (line :: rest) = ([], 0) := by
          rw [specPfx, hv]
          dsimp only
          rw [hdec]
        rw [hsp]
        rfl
      | some v =>
        have hsp : specPfx dec (line :: rest)
            = (v :: (specPfx dec rest).1,
               line.length + (specPfx dec rest).2) := by
          rw [specPfx, hv]
          dsimp only
          rw [hdec]
        rw [hsp, List.flatten_cons]
        dsimp only
        rw [List.take_append, ih, List.length_cons, List.take_succ_cons,
          List.flatten_cons]

/-- C3 counterexample to the claim as stated: on the four-byte content
`ff 20 78 0a` — one line whose digest field is the single byte `0xff` — the
claim says reading stops at this first invalid record, truncates to offset 0
and returns the empty record list; the code instead raises, because
`_decode_record` runs `digest.decode()` on the digest field before comparing
it, and `0xff` is not valid UTF-8 (`UnicodeDecodeError` propagates out of
`_iter_existing_records` before any truncation).  The second conjunct
evaluates the spec-side reading on the same content to show the predicted
outcome. -/
theorem c3_truncate_counterexample :
    readLog (fun l : List Nat => some l) [255, 32, 120, 10]
      = .error () ∧
    specPfx (fun l : List Nat => some l) (splitLines [255, 32, 120, 10])
      = ([], 0) := by
  constructor
  · decide
  · decide

/-- C3 (amended): provided no line makes `_decode_record` raise — that is, no
line whose digest field is compared is invalid UTF-8, and no digest-matching
payload fails to decode — opening the write log reads records line by line in
order, stops at the first line that does not split into a digest and payload
on the first space or whose recorded digest does not match the payload's
SHA-256 digest, returns exactly the decoded valid prefix of records
(`specPfx`, the spec-side reading), and the returned truncation offset cuts
the content exactly at the byte just after the last valid record. -/
theorem c3_truncate_amended {α : Type} (dec : List Nat → Option α)
    (content : List Nat)
    (hnoerr : ∀ line ∈ splitLines content,
      decodeRecord dec line ≠ LineResult.err) :
    readLog dec content = .ok (specPfx dec (splitLines content)) ∧
    content.take (specPfx dec (splitLines content)).2
      = ((splitLines content).take
          (specPfx dec (splitLines content)).1.length).flatten := by
  constructor
  · rw [readLog, readLogAux_spec dec (splitLines content) hnoerr 0 []]
    simp
  · have h := specPfx_take_flatten dec (splitLines content)
    rw [splitLines_flatten content] at h
    exact h

theorem c3_truncate_amended_witness :
    readLog (fun l : List Nat => some l) [97, 98, 99, 10]
      = .ok (specPfx (fun l : List Nat => some l)
          (splitLines [97, 98, 99, 10])) ∧
    [97, 98, 99, 10].take
        (specPfx (fun l : List Nat => some l)
          (splitLines [97, 98, 99, 10])).2
      = ((splitLines [97, 98, 99, 10]).take
          (specPfx (fun l : List Nat => some l)
            (splitLines [97, 98, 99, 10])).1.length).flatten :=
  c3_truncate_amended (fun l => some l) [97, 98, 99, 10] (by decide)
